import Mathlib

/-!
Verification development for the CodeBuddy chat-completion proxy
(`src/main.ts`).  The proxy's two core components are embedded shallowly:

* the Stream Reducer `collectStreamData` (src/main.ts lines 129-243), a fold
  over decoded SSE chunks that reconstructs one completion document, and
* the Message Normalizer `handleChatMessage` (src/main.ts lines 246-307).

JavaScript dynamic values are modelled by the inductive type `Json`
(`undefined` is represented by `Option.none` at access sites, `null` by
`Json.null`).  Fallible JavaScript evaluation (a thrown `TypeError`) is
modelled with `Except Unit`.  The two wall-clock reads in the source
(`Math.floor(Date.now() / 1000)` at reducer start, `Date.now()` when the
fallback id is generated) are passed in as explicit integer parameters.
-/

namespace CbProxy

/-- Model of a JavaScript/JSON value.  Numbers are modelled as integers
(every numeric literal appearing in the proxy's data paths is integral);
objects are association lists with unique keys kept in insertion order,
matching JavaScript object semantics. -/
inductive Json where
  | null : Json
  | bool : Bool → Json
  | num : Int → Json
  | str : String → Json
  | arr : List Json → Json
  | obj : List (String × Json) → Json

/-- JavaScript truthiness of a value (`NaN` does not arise in the integer
model). -/
def Json.truthy : Json → Bool
  | Json.null => false
  | Json.bool b => b
  | Json.num n => decide (n ≠ 0)
  | Json.str s => decide (s ≠ "")
  | Json.arr _ => true
  | Json.obj _ => true

/-- Truthiness of a possibly-absent (`undefined`) value. -/
def truthyO : Option Json → Bool
  | none => false
  | some j => j.truthy

/-- Property access `v.k`: defined on objects, `undefined` on everything
else (string/number/array property access for the names used by the proxy
always yields `undefined`). -/
def getF : Json → String → Option Json
  | Json.obj fs, k => (fs.find? fun p => p.1 = k).map (fun p => p.2)
  | _, _ => none

/-- Assignment/override of one object key, preserving JavaScript key order:
an existing key keeps its position and gets the new value, a new key is
appended. -/
def objSet (fs : List (String × Json)) (k : String) (v : Json) :
    List (String × Json) :=
  match fs with
  | [] => [(k, v)]
  | (k0, v0) :: rest =>
    if k0 = k then (k0, v) :: rest else (k0, v0) :: objSet rest k v

/-- Element access `v[0]` as used for `parsed.choices[0]`: first element of
an array, first character of a string, property `"0"` of an object,
`undefined` otherwise. -/
def jsIndex0 : Json → Option Json
  | Json.arr (x :: _) => some x
  | Json.arr [] => none
  | Json.str s =>
    match s.toList with
    | c :: _ => some (Json.str (String.mk [c]))
    | [] => none
  | Json.obj fs => (fs.find? fun p => p.1 = "0").map (fun p => p.2)
  | _ => none

/-- JavaScript `String(v)`.  Array elements stringify as in
`Array.prototype.join`, where a `null` element contributes the empty
string. -/
def jsToStr : Json → String
  | Json.null => "null"
  | Json.bool b => if b then "true" else "false"
  | Json.num n => toString n
  | Json.str s => s
  | Json.obj _ => "[object Object]"
  | Json.arr [] => ""
  | Json.arr (j :: rest) =>
    (match j with
     | Json.null => ""
     | j2 => jsToStr j2) ++
    (match rest with
     | [] => ""
     | r => "," ++ jsToStr (Json.arr r))

/-- JavaScript `ToNumber` on primitives (strings and composites never reach
this in `jsAdd`). -/
def jsToNum : Json → Int
  | Json.null => 0
  | Json.bool b => if b then 1 else 0
  | Json.num n => n
  | _ => 0

/-- JavaScript binary `+` (as used by the source's `+=` accumulation):
arrays and objects convert to their primitive string form; then if either
side is a string the result is string concatenation, otherwise numeric
addition.  The string/string case (the only one the proxy's data paths
exercise) is kept first so that it reduces without unfolding `jsToStr`. -/
def jsAdd (a b : Json) : Json :=
  let pa := match a with
    | Json.arr xs => Json.str (jsToStr (Json.arr xs))
    | Json.obj fs => Json.str (jsToStr (Json.obj fs))
    | x => x
  let pb := match b with
    | Json.arr xs => Json.str (jsToStr (Json.arr xs))
    | Json.obj fs => Json.str (jsToStr (Json.obj fs))
    | x => x
  match pa, pb with
  | Json.str s, Json.str t => Json.str (s ++ t)
  | Json.str s, y => Json.str (s ++ jsToStr y)
  | x, Json.str s => Json.str (jsToStr x ++ s)
  | x, y => Json.num (jsToNum x + jsToNum y)

/-- Whitespace trimmed by JavaScript `String.prototype.trim` (the ASCII
subset; the proxy's data never contains the non-ASCII space characters). -/
def isWsChar (c : Char) : Bool :=
  c = ' ' || c = '\t' || c = '\n' || c = '\r' || c = '\x0b' || c = '\x0c'

/-- JavaScript `s.trim()`. -/
def jsTrim (s : String) : String :=
  String.mk (((s.toList.dropWhile isWsChar).reverse.dropWhile isWsChar).reverse)

/-- JSON (RFC 8259) insignificant whitespace, as skipped by `JSON.parse`. -/
def isJsonWs (c : Char) : Bool :=
  c = ' ' || c = '\t' || c = '\n' || c = '\r'

/-- Decoded character of a JSON string escape sequence (`\uXXXX` escapes are
not modelled; no data line produced or consumed by the proxy's claims uses
them, and a parse that would need one simply fails, which the reducer
treats like any other malformed line). -/
def escCharOf (e : Char) : Option Char :=
  if e = 'n' then some '\n'
  else if e = 't' then some '\t'
  else if e = 'r' then some '\r'
  else if e = 'b' then some '\x08'
  else if e = 'f' then some '\x0c'
  else if e = '"' || e = '\\' || e = '/' then some e
  else none

/-- Parse the body of a JSON string literal (after the opening quote);
returns the decoded characters and the input following the closing
quote. -/
def parseStrBody : List Char → Option (List Char × List Char)
  | [] => none
  | '"' :: rest => some ([], rest)
  | '\\' :: e :: rest =>
    match escCharOf e with
    | none => none
    | some c => (parseStrBody rest).map fun p => (c :: p.1, p.2)
  | c :: rest => (parseStrBody rest).map fun p => (c :: p.1, p.2)

/-- Longest digit run at the head of the input, with the rest. -/
def takeDigits (l : List Char) : List Char × List Char :=
  (l.takeWhile Char.isDigit, l.dropWhile Char.isDigit)

/-- Numeric value of a digit run. -/
def digitsToNat (ds : List Char) : Nat :=
  ds.foldl (fun n c => n * 10 + (c.toNat - '0'.toNat)) 0

/-- Keys of a parsed JSON object, deduplicated with JavaScript semantics:
the first occurrence fixes the position, the last occurrence fixes the
value. -/
def dedupFields (raw : List (String × Json)) : List (String × Json) :=
  raw.foldl (fun acc p => objSet acc p.1 p.2) []

/-- Consume an expected literal character sequence, yielding the rest of
the input when it is there. -/
def expectChars (kw : List Char) (cs : List Char) : Option (List Char) :=
  match kw, cs with
  | [], rest => some rest
  | _ :: _, [] => none
  | k :: ks, c :: rest => if c = k then expectChars ks rest else none

mutual

/-- Recursive-descent `JSON.parse` on a character list, fueled to make the
mutual recursion structural (the fuel is instantiated with one more than
the input length, which bounds the recursion depth).  Integer numerals,
strings, booleans, `null`, arrays and objects are parsed; fractional or
exponent numerals are not modelled (none occur in the proxy's streams). -/
def jsonVal : Nat → List Char → Option (Json × List Char)
  | 0, _ => none
  | Nat.succ f, cs0 =>
    match cs0.dropWhile isJsonWs with
    | [] => none
    | c :: r =>
      if c = 'n' then
        (expectChars ['u', 'l', 'l'] r).map fun r2 => (Json.null, r2)
      else if c = 't' then
        (expectChars ['r', 'u', 'e'] r).map fun r2 => (Json.bool true, r2)
      else if c = 'f' then
        (expectChars ['a', 'l', 's', 'e'] r).map fun r2 => (Json.bool false, r2)
      else if c = '"' then
        (parseStrBody r).map fun p => (Json.str (String.mk p.1), p.2)
      else if c = '[' then
        match r.dropWhile isJsonWs with
        | ']' :: r2 => some (Json.arr [], r2)
        | _ => (jsonArrTail f r).map fun p => (Json.arr p.1, p.2)
      else if c = '{' then
        match r.dropWhile isJsonWs with
        | '}' :: r2 => some (Json.obj [], r2)
        | _ => (jsonObjTail f r).map fun p => (Json.obj (dedupFields p.1), p.2)
      else if c = '-' then
        match takeDigits r with
        | ([], _) => none
        | (ds, r2) => some (Json.num (-(Int.ofNat (digitsToNat ds))), r2)
      else if c.isDigit then
        match takeDigits (c :: r) with
        | (ds, r2) => some (Json.num (Int.ofNat (digitsToNat ds)), r2)
      else none

/-- After `[` (with a non-`]` head): the comma-separated items and the
closing bracket. -/
def jsonArrTail : Nat → List Char → Option (List Json × List Char)
  | 0, _ => none
  | Nat.succ f, cs =>
    match jsonVal f cs with
    | none => none
    | some (v, r) =>
      match r.dropWhile isJsonWs with
      | ',' :: r2 => (jsonArrTail f r2).map fun p => (v :: p.1, p.2)
      | ']' :: r2 => some ([v], r2)
      | _ => none

/-- After `{` (with a non-`}` head): the comma-separated members and the
closing brace. -/
def jsonObjTail : Nat → List Char → Option (List (String × Json) × List Char)
  | 0, _ => none
  | Nat.succ f, cs =>
    match cs.dropWhile isJsonWs with
    | '"' :: r =>
      (match parseStrBody r with
       | none => none
       | some (kcs, r1) =>
         match r1.dropWhile isJsonWs with
         | ':' :: r2 =>
           (match jsonVal f r2 with
            | none => none
            | some (v, r3) =>
              match r3.dropWhile isJsonWs with
              | ',' :: r4 =>
                (jsonObjTail f r4).map fun p => ((String.mk kcs, v) :: p.1, p.2)
              | '}' :: r4 => some ([(String.mk kcs, v)], r4)
              | _ => none)
         | _ => none)
    | _ => none

end

/-- Model of `JSON.parse(s)`: `none` is a thrown `SyntaxError` (which the
reducer's per-line `try`/`catch` swallows). -/
def parseJson (s : String) : Option Json :=
  match jsonVal (s.length + 1) s.toList with
  | some (v, r) => if (r.dropWhile isJsonWs).isEmpty then some v else none
  | none => none

/-- JavaScript `chunk.split('\n')` on a character list: every newline
separates, empty segments are kept. -/
def splitNl : List Char → List (List Char)
  | [] => [[]]
  | c :: rest =>
    match splitNl rest with
    | [] => [[c]]
    | h :: t => if c = '\n' then [] :: h :: t else (c :: h) :: t

/-- JavaScript `chunk.split('\n')`. -/
def splitLines (s : String) : List String := (splitNl s.toList).map String.mk

/-- Test for the literal prefix `data: ` (JavaScript
`line.startsWith('data: ')`). -/
def hasDataPre : List Char → Bool
  | 'd' :: 'a' :: 't' :: 'a' :: ':' :: ' ' :: _ => true
  | _ => false

/-- The `function` part of a tool-call accumulator slot
(src/main.ts lines 189-192). -/
structure ToolFn where
  name : Json
  arguments : Json

/-- One tool-call accumulator slot (src/main.ts lines 186-193). -/
structure ToolCall where
  id : Json
  type : Json
  function : ToolFn

/-- The reducer's running fold state (src/main.ts lines 133-143).
`toolCalls` models the JavaScript sparse array `toolCalls[toolIndex] = …`
as a map from integer index to slot; the emitted array view is recovered
by `emitToolCalls`. -/
structure Acc where
  content : Json
  model : Json
  id : Json
  created : Json
  finishReason : Json
  toolCalls : List (Int × ToolCall)
  usage : Json

/-- The zero `usage` object initialized at src/main.ts lines 139-143. -/
def usageZero : Json :=
  Json.obj [("prompt_tokens", Json.num 0), ("completion_tokens", Json.num 0),
            ("total_tokens", Json.num 0)]

/-- Initial fold state; `startS` models the clock read
`Math.floor(Date.now() / 1000)` at src/main.ts line 136. -/
def initAcc (startS : Int) : Acc :=
  { content := Json.str "", model := Json.str "", id := Json.str ""
    created := Json.num startS, finishReason := Json.str "stop"
    toolCalls := [], usage := usageZero }

/-- The resolution `const toolIndex = toolCall.index || 0`
(src/main.ts line 182).  An absent or falsy `index` gives 0; a numeric
`index` gives itself.  A truthy non-numeric `index` (which JavaScript
would use as a property key) is modelled as 0; every theorem that touches
tool-call indices restricts itself to numeric-or-absent `index` fields. -/
def resolveIndex : Option Json → Int
  | some (Json.num n) => n
  | _ => 0

/-- Element read `toolCalls[i]` of the sparse array (a hole reads as
`undefined`). -/
def lookupTC (m : List (Int × ToolCall)) (i : Int) : Option ToolCall :=
  (m.find? fun p => p.1 = i).map (fun p => p.2)

/-- Element write `toolCalls[i] = v` of the sparse array. -/
def setTC (m : List (Int × ToolCall)) (i : Int) (v : ToolCall) :
    List (Int × ToolCall) :=
  match m with
  | [] => [(i, v)]
  | (j, w) :: rest =>
    if j = i then (i, v) :: rest else (j, w) :: setTC rest i v

/-- The start-of-a-new-tool-call test `toolCall.id && toolCall.type &&
toolCall.function` (src/main.ts line 184). -/
def startShape (tc : Json) : Bool :=
  truthyO (getF tc "id") && truthyO (getF tc "type") &&
    truthyO (getF tc "function")

/-- Processing of one element of `choice.delta.tool_calls`
(src/main.ts lines 181-204): a delta carrying truthy `id`, `type` and
`function` starts (replaces) the slot at its index, initializing `name`
and `arguments` with `|| ''` defaults; otherwise, if the slot exists and
the delta carries a truthy `function`, a present `arguments` is appended
with `+=` and a truthy `name` overwrites. -/
def applyToolCallDelta (m : List (Int × ToolCall)) (tc : Json) :
    List (Int × ToolCall) :=
  if startShape tc then
    setTC m (resolveIndex (getF tc "index"))
      { id := (getF tc "id").getD Json.null
        type := (getF tc "type").getD Json.null
        function :=
          { name :=
              match getF ((getF tc "function").getD Json.null) "name" with
              | some v => if v.truthy then v else Json.str ""
              | none => Json.str ""
            arguments :=
              match getF ((getF tc "function").getD Json.null) "arguments" with
              | some v => if v.truthy then v else Json.str ""
              | none => Json.str "" } }
  else
    match lookupTC m (resolveIndex (getF tc "index")), getF tc "function" with
    | some cur, some fn =>
      if fn.truthy then
        let cur1 := match getF fn "arguments" with
          | some v =>
            { cur with function :=
                { cur.function with arguments := jsAdd cur.function.arguments v } }
          | none => cur
        let cur2 := match getF fn "name" with
          | some v =>
            if v.truthy then { cur1 with function := { cur1.function with name := v } }
            else cur1
          | none => cur1
        setTC m (resolveIndex (getF tc "index")) cur2
      else m
    | _, _ => m

/-- The guarded read `parsed.choices && parsed.choices[0]`
(src/main.ts line 171): the choice object when both are truthy. -/
def choiceOf (parsed : Json) : Option Json :=
  match getF parsed "choices" with
  | some cv =>
    if cv.truthy then
      match jsIndex0 cv with
      | some c0 => if c0.truthy then some c0 else none
      | none => none
    else none
  | none => none

/-- The content value appended by src/main.ts line 176: present exactly
when `choice.delta && choice.delta.content` is truthy. -/
def contentDeltaOf (parsed : Json) : Option Json :=
  match choiceOf parsed with
  | none => none
  | some choice =>
    match getF choice "delta" with
    | some d =>
      if d.truthy then
        match getF d "content" with
        | some cv => if cv.truthy then some cv else none
        | none => none
      else none
    | none => none

/-- The list iterated by the `for … of` loop at src/main.ts line 181,
reached when `choice.delta && choice.delta.tool_calls &&
choice.delta.tool_calls.length > 0`; the loop body only ever fires when
`tool_calls` is an array (iterating a truthy string of positive `length`
runs the body on one-character strings, for which both branches' guards
are false, so it contributes nothing). -/
def toolCallDeltasOf (parsed : Json) : List Json :=
  match choiceOf parsed with
  | none => []
  | some choice =>
    match getF choice "delta" with
    | some d =>
      if d.truthy then
        match getF d "tool_calls" with
        | some (Json.arr tcs) => if tcs.length > 0 then tcs else []
        | _ => []
      else []
    | none => []

/-- The truthy `choice.finish_reason` overwrite value
(src/main.ts lines 207-209). -/
def finishReasonOf (parsed : Json) : Option Json :=
  match choiceOf parsed with
  | none => none
  | some choice =>
    match getF choice "finish_reason" with
    | some fr => if fr.truthy then some fr else none
    | none => none

/-- Merge of one successfully parsed delta object into the fold state
(src/main.ts lines 164-210): last-write-wins for truthy `id`, `model`,
`created`; full replacement for truthy `usage`; then content append,
tool-call processing and truthy `finish_reason` overwrite, all guarded
through `parsed.choices && parsed.choices[0]`. -/
def processParsed (st : Acc) (parsed : Json) : Acc :=
  let st := match getF parsed "id" with
    | some v => if v.truthy then { st with id := v } else st
    | none => st
  let st := match getF parsed "model" with
    | some v => if v.truthy then { st with model := v } else st
    | none => st
  let st := match getF parsed "created" with
    | some v => if v.truthy then { st with created := v } else st
    | none => st
  let st := match getF parsed "usage" with
    | some v => if v.truthy then { st with usage := v } else st
    | none => st
  let st := match contentDeltaOf parsed with
    | some cv => { st with content := jsAdd st.content cv }
    | none => st
  let st :=
    { st with toolCalls :=
        (toolCallDeltasOf parsed).foldl applyToolCallDelta st.toolCalls }
  match finishReasonOf parsed with
  | some fr => { st with finishReason := fr }
  | none => st

/-- Processing of one decoded line (src/main.ts lines 153-214): only lines
with the literal `data: ` prefix matter; the remainder is trimmed; a
`[DONE]` marker is skipped; a JSON parse failure is swallowed (the
`catch` at line 211) and contributes nothing. -/
def processLine (st : Acc) (line : String) : Acc :=
  if hasDataPre line.toList then
    if jsTrim (String.mk (line.toList.drop 6)) = "[DONE]" then st
    else
      match parseJson (jsTrim (String.mk (line.toList.drop 6))) with
      | none => st
      | some parsed => processParsed st parsed
  else st

/-- Fold of the reducer over a list of already-decoded lines. -/
def collectFromLines (startS : Int) (ls : List String) : Acc :=
  ls.foldl processLine (initAcc startS)

/-- JavaScript `toolCalls.length` for the sparse array: one more than the
greatest assigned non-negative index, 0 when none was assigned. -/
def arrayLen : List (Int × ToolCall) → Nat
  | [] => 0
  | p :: rest =>
    if 0 ≤ p.1 then max (p.1.toNat + 1) (arrayLen rest) else arrayLen rest

/-- The `tool_calls` field attached to the message when at least one slot
was assigned (src/main.ts lines 227-229): the dense array view of the
sparse accumulator, holes included (`none` models a hole, which JSON
serialization renders as `null`). -/
def emitToolCalls (m : List (Int × ToolCall)) : Option (List (Option ToolCall)) :=
  if arrayLen m > 0 then
    some ((List.range (arrayLen m)).map fun i => lookupTC m (Int.ofNat i))
  else none

/-- The document assembled at stream end (src/main.ts lines 221-242),
flattened over the nested `choices[0].message` shape: `messageRole`,
`messageContent` and `messageToolCalls` are the fields of the single
choice's message. -/
structure CompletionDoc where
  id : Json
  object : String
  created : Json
  model : Json
  messageRole : String
  messageContent : Json
  messageToolCalls : Option (List (Option ToolCall))
  finishReason : Json
  usage : Json

/-- Document assembly from the final fold state; `endMs` models the clock
read `Date.now()` in the fallback id at src/main.ts line 232. -/
def buildDoc (endMs : Int) (st : Acc) : CompletionDoc :=
  { id := if st.id.truthy then st.id
          else Json.str ("chatcmpl-" ++ toString endMs)
    object := "chat.completion"
    created := st.created
    model := if st.model.truthy then st.model else Json.str "gpt-3.5-turbo"
    messageRole := "assistant"
    messageContent := if st.content.truthy then st.content else Json.null
    messageToolCalls := emitToolCalls st.toolCalls
    finishReason := st.finishReason
    usage := st.usage }

/-- The Stream Reducer `collectStreamData` (src/main.ts lines 129-243) over
the list of decoded text chunks delivered by the reader: every chunk is
split on newlines separately (the source keeps no carry-over buffer across
chunks; `TextDecoder` in stream mode only carries partial UTF-8 code
points, never partial lines, so for the ASCII streams at issue the decoded
text chunks coincide with the byte chunks). -/
def collectStreamData (startS endMs : Int) (chunks : List String) :
    CompletionDoc :=
  buildDoc endMs
    (chunks.foldl (fun st c => (splitLines c).foldl processLine st)
      (initAcc startS))

/-- A single text content block `{ type: 'text', text: t }`. -/
def textBlock (t : String) : Json :=
  Json.obj [("type", Json.str "text"), ("text", Json.str t)]

/-- The filter predicate applied to array content items
(src/main.ts lines 271-272): `item && item.type === 'text' && item.text &&
item.text.trim()`.  Calling `.trim()` on a truthy non-string `text` value
throws a `TypeError`, modelled by `Except.error ()`. -/
def itemKeep (item : Json) : Except Unit Bool :=
  if item.truthy then
    match getF item "type" with
    | some (Json.str s) =>
      if s = "text" then
        match getF item "text" with
        | some tv =>
          if tv.truthy then
            match tv with
            | Json.str t => Except.ok (decide (jsTrim t ≠ ""))
            | _ => Except.error ()
          else Except.ok false
        | none => Except.ok false
      else Except.ok false
    | _ => Except.ok false
  else Except.ok false

/-- The map step `{ ...item, text: item.text.trim() }` applied to kept
items (src/main.ts lines 273-276). -/
def fixItem (item : Json) : Json :=
  match item with
  | Json.obj fs =>
    (match getF (Json.obj fs) "text" with
     | some (Json.str t) => Json.obj (objSet fs "text" (Json.str (jsTrim t)))
     | _ => Json.obj fs)
  | other => other

/-- The `filter`/`map` pipeline over array content
(src/main.ts lines 271-276), with the predicate evaluated left to right
and the first thrown `TypeError` propagated. -/
def fixContentList : List Json → Except Unit (List Json)
  | [] => Except.ok []
  | i :: rest =>
    match itemKeep i with
    | Except.error e => Except.error e
    | Except.ok true => (fixContentList rest).map fun l => fixItem i :: l
    | Except.ok false => fixContentList rest

/-- Override of the `content` field on the spread copy
`{ ...message, content: … }`. -/
def withContent (m : Json) (v : Json) : Json :=
  match m with
  | Json.obj fs => Json.obj (objSet fs "content" v)
  | other => other

/-- Repair of a single message (the loop body, src/main.ts lines
250-288): `Except.ok none` means the message is skipped, `Except.ok
(some m')` means `m'` is pushed, `Except.error ()` models a thrown
`TypeError` from the content filter. -/
def fixMessage (m : Json) : Except Unit (Option Json) :=
  if !m.truthy || (!truthyO (getF m "content") && !truthyO (getF m "role")) then
    Except.ok none
  else
    match getF m "content" with
    | some (Json.str s) =>
      if (Json.str s).truthy then
        if jsTrim s ≠ "" then
          Except.ok (some (withContent m (Json.arr [textBlock (jsTrim s)])))
        else Except.ok none
      else Except.ok none
    | some (Json.arr items) =>
      (match fixContentList items with
       | Except.error e => Except.error e
       | Except.ok valid =>
         if valid.isEmpty then Except.ok none
         else Except.ok (some (withContent m (Json.arr valid))))
    | some v =>
      if v.truthy then Except.ok (some m) else Except.ok none
    | none => Except.ok none

/-- The filter-and-repair pass accumulating `fixedMessages`
(src/main.ts lines 248-288). -/
def fixPass : List Json → Except Unit (List Json)
  | [] => Except.ok []
  | m :: rest =>
    match fixMessage m with
    | Except.error e => Except.error e
    | Except.ok none => fixPass rest
    | Except.ok (some fm) => (fixPass rest).map fun l => fm :: l

/-- The synthetic system message prepended by the post-pass
(src/main.ts lines 292-301). -/
def defaultSystemMessage : Json :=
  Json.obj [("role", Json.str "system"),
            ("content", Json.arr [textBlock "You are a helpful assistant."])]

/-- Test `fixedMessages[0].role !== 'system'` is false, i.e. the role is
exactly the string `'system'`. -/
def roleIsSystem (m : Json) : Bool :=
  match getF m "role" with
  | some (Json.str s) => s = "system"
  | _ => false

/-- The Message Normalizer `handleChatMessage` (src/main.ts lines
246-307): the filter-and-repair pass followed by the single-survivor
post-pass that prepends `defaultSystemMessage`. -/
def handleChatMessage (ms : List Json) : Except Unit (List Json) :=
  match fixPass ms with
  | Except.error e => Except.error e
  | Except.ok fixed =>
    match fixed with
    | [m] =>
      if roleIsSystem m then Except.ok [m]
      else Except.ok [defaultSystemMessage, m]
    | l => Except.ok l

/-- An inbound request as far as `handleRequest` inspects it: method, URL
path, header list, and the result of `await request.json()` (`none` models
a body that is not valid JSON, whose thrown `SyntaxError` the outer
`catch` turns into a 500). -/
structure ReqModel where
  method : String
  urlPath : String
  headers : List (String × String)
  body : Option Json

/-- ASCII lowering used for case-insensitive header-name comparison. -/
def lowerStr (s : String) : String := String.mk (s.toList.map Char.toLower)

/-- Fetch-API `request.headers.get(name)`: header names compare
case-insensitively; an absent header yields `null` (here `none`).
Duplicate header names (which the Fetch API would join with `", "`) are
modelled by the first entry. -/
def headersGet (hs : List (String × String)) (nm : String) : Option String :=
  (hs.find? fun p => lowerStr p.1 = lowerStr nm).map (fun p => p.2)

/-- JavaScript `a || b` where `a` is a string-or-null header read: an
empty string is falsy and falls through. -/
def jsOrStr (a b : Option String) : Option String :=
  match a with
  | some s => if s = "" then b else some s
  | none => b

/-- The credential chain `request.headers.get('authorization') ||
request.headers.get('x-api-key') || request.headers.get('Authorization')`
(src/main.ts lines 29-31). -/
def credentialToken (r : ReqModel) : Option String :=
  jsOrStr (headersGet r.headers "authorization")
    (jsOrStr (headersGet r.headers "x-api-key")
      (headersGet r.headers "Authorization"))

/-- Truthiness of the token value: `null` and `""` both fail the
`if (!token)` check at src/main.ts line 33. -/
def tokenTruthy : Option String → Bool
  | some s => decide (s ≠ "")
  | none => false

/-- Substring test for `url.pathname.includes('/chat/completions')`. -/
def listHasPre : List Char → List Char → Bool
  | [], _ => true
  | _ :: _, [] => false
  | p :: ps, c :: cs => p = c && listHasPre ps cs

/-- Substring occurrence anywhere in the list. -/
def listHasSub (sub : List Char) : List Char → Bool
  | [] => sub.isEmpty
  | c :: rest => listHasPre sub (c :: rest) || listHasSub sub rest

/-- JavaScript `s.includes(sub)`. -/
def strIncludes (s sub : String) : Bool := listHasSub sub.toList s.toList

/-- The fixed model-name mapping table (src/main.ts lines 7-9). -/
def modelMapping : String → Option String
  | s => if s = "claude-4.0" then some "default-model" else none

/-- The mapping `modelMapping[body.model] || body.model`
(src/main.ts line 50).  A missing `body.model` leaves the payload's
`model` key `undefined` (here `none`), which `JSON.stringify` omits. -/
def mappedModelOf : Option Json → Option Json
  | some (Json.str s) =>
    (match modelMapping s with
     | some t => some (Json.str t)
     | none => some (Json.str s))
  | some v => some v
  | none => none

/-- Removal of an object key, for the `undefined`-valued `model` override
that `JSON.stringify` drops. -/
def objDel (fs : List (String × Json)) (k : String) : List (String × Json) :=
  fs.filter fun p => p.1 ≠ k

/-- The serialized upstream request body
`{ ...body, stream: true, messages, model: mappedModel }`
(src/main.ts line 61). -/
def upstreamPayload (body : Json) (msgs : List Json) (mapped : Option Json) :
    Json :=
  let base := match body with
    | Json.obj fs => fs
    | _ => []
  let withStream := objSet base "stream" (Json.bool true)
  let withMsgs := objSet withStream "messages" (Json.arr msgs)
  match mapped with
  | some mv => Json.obj (objSet withMsgs "model" mv)
  | none => Json.obj (objDel withMsgs "model")

/-- Outcome of `handleRequest` up to (and including the decision to make)
the upstream `fetch`: a plain-text response, a JSON response with its
status and body, or the upstream call with the forwarded token and
serialized payload.  Everything after the `fetch` depends only on the
upstream's answer and is outside the embedded fragment. -/
inductive HResult where
  | plain : Nat → String → HResult
  | jsonResp : Nat → Json → HResult
  | upstream : String → Json → HResult

/-- The error envelope `{ error: { message, type }, type: 'error' }`. -/
def errEnvelope (msg ty : String) : Json :=
  Json.obj [("error", Json.obj [("message", Json.str msg),
                                ("type", Json.str ty)]),
            ("type", Json.str "error")]

/-- The 401 body built at src/main.ts lines 34-40. -/
def authEnvelope : Json := errEnvelope "Authorization header is required" "auth_error"

/-- Arguments on which `handleChatMessage` is invoked for a given
`body.messages` value: an array iterates its elements, a string iterates
its characters (each a one-character string), everything else makes
`for … of` throw a `TypeError` (propagated to the outer `catch`). -/
def messagesIterable : Option Json → Option (List Json)
  | some (Json.arr ms) => some ms
  | some (Json.str s) => some (s.toList.map fun c => Json.str (String.mk [c]))
  | _ => none

/-- The request handler `handleRequest` (src/main.ts lines 15-126) up to
the upstream call: method check, path check, body parse, credential
check, message normalization, model mapping.  Any exception thrown on the
way (body parse, message iteration, normalizer `TypeError`) reaches the
outer `catch` and becomes a 500 envelope; the thrown error's message text
is abstracted to a fixed string. -/
def handleRequest (r : ReqModel) : HResult :=
  if r.method ≠ "POST" then HResult.plain 405 "Method Not Allowed"
  else if !strIncludes r.urlPath "/chat/completions" then
    HResult.plain 404 "Not Found"
  else
    match r.body with
    | none => HResult.jsonResp 500 (errEnvelope "Internal Server Error" "server_error")
    | some body =>
      if !tokenTruthy (credentialToken r) then HResult.jsonResp 401 authEnvelope
      else
        match messagesIterable (getF body "messages") with
        | none =>
          HResult.jsonResp 500 (errEnvelope "Internal Server Error" "server_error")
        | some ms =>
          match handleChatMessage ms with
          | Except.error _ =>
            HResult.jsonResp 500 (errEnvelope "Internal Server Error" "server_error")
          | Except.ok msgs =>
            HResult.upstream ((credentialToken r).getD "")
              (upstreamPayload body msgs (mappedModelOf (getF body "model")))

/-! Readers and predicates used to state the claims.  These re-read the
embedded definitions (or, where marked, transcribe the wording of the
specification) and are only used in theorem statements and proofs. -/

/-- The delta object a single line contributes, if any: the line must
carry the `data: ` prefix, its trimmed remainder must not be the `[DONE]`
marker, and the remainder must parse. -/
def lineDelta (l : String) : Option Json :=
  if hasDataPre l.toList then
    if jsTrim (String.mk (l.toList.drop 6)) = "[DONE]" then none
    else parseJson (jsTrim (String.mk (l.toList.drop 6)))
  else none

/-- The truthy `created` value a parsed delta carries, if any
(src/main.ts line 166). -/
def createdOf (parsed : Json) : Option Json :=
  match getF parsed "created" with
  | some v => if v.truthy then some v else none
  | none => none

/-- The truthy `created` value a single line contributes, if any. -/
def truthyCreatedOf (l : String) : Option Json :=
  (lineDelta l).bind createdOf

/-- The last truthy `created` value contributed by a line list. -/
def lastCreatedIn (ls : List String) : Option Json :=
  ls.foldl
    (fun acc l =>
      match truthyCreatedOf l with
      | some v => some v
      | none => acc)
    none

/-- The decoded lines of a chunk list, in processing order. -/
def linesOf (chunks : List String) : List String :=
  (chunks.map splitLines).flatten

/-- Spec predicate (§3): a content block has `type` exactly `"text"` and a
non-empty `text` equal to its own trimmed form. -/
def blockOk (b : Json) : Bool :=
  (match getF b "type" with
   | some (Json.str s) => decide (s = "text")
   | _ => false) &&
  (match getF b "text" with
   | some (Json.str t) => decide (t ≠ "") && decide (jsTrim t = t)
   | _ => false)

/-- Spec predicate (§3, claim C2): a message's `content` is a non-empty
ordered sequence of valid text blocks. -/
def msgContentOk (m : Json) : Bool :=
  match getF m "content" with
  | some (Json.arr bs) => !bs.isEmpty && bs.all blockOk
  | _ => false

/-- Hypothesis shape for the amended C2: the message's `content` field is
a string, an array, or absent/falsy (the shapes the source's repair
branches actually handle). -/
def contentShapeOk (m : Json) : Bool :=
  match getF m "content" with
  | some (Json.str _) => true
  | some (Json.arr _) => true
  | some v => !v.truthy
  | none => true

/-- Whether a fallible evaluation succeeded. -/
def isOkE {α : Type} (x : Except Unit α) : Bool :=
  match x with
  | Except.ok _ => true
  | Except.error _ => false

/-- A content item on which the filter predicate evaluates without
throwing, stated structurally: the predicate's `.trim()` call is only
reached on a truthy item of type `"text"` whose `text` is truthy, and it
throws exactly when that `text` is not a string. -/
def itemSafe (i : Json) : Bool :=
  if i.truthy then
    match getF i "type" with
    | some (Json.str s) =>
      if s = "text" then
        match getF i "text" with
        | some tv =>
          if tv.truthy then
            match tv with
            | Json.str _ => true
            | _ => false
          else true
        | none => true
      else true
    | _ => true
  else true

/-- Hypothesis shape for the amended C3: every array content item of the
message evaluates without a `TypeError`. -/
def msgSafe (m : Json) : Bool :=
  match getF m "content" with
  | some (Json.arr items) => items.all itemSafe
  | _ => true

/-- Concatenation of a list of strings in order. -/
def strConcat : List String → String
  | [] => ""
  | s :: rest => s ++ strConcat rest

/-- One tool-call continuation fragment for claim C4: not start-shaped, at
index `i`, carrying a truthy `function` whose `arguments` is the string
given as the pair's second component. -/
def contFragOk (i : Int) (p : Json × String) : Bool :=
  !startShape p.1 && decide (resolveIndex (getF p.1 "index") = i) &&
  (match getF p.1 "function" with
   | some fn =>
     fn.truthy &&
     (match getF fn "arguments" with
      | some (Json.str a) => decide (a = p.2)
      | _ => false)
   | none => false)

/-- Hypothesis for C10, per line: every start-shaped tool-call delta the
line contributes resolves to an index at least `k`. -/
def startIdxOkLine (k : Int) (l : String) : Bool :=
  match lineDelta l with
  | none => true
  | some d =>
    (toolCallDeltasOf d).all fun tc =>
      !startShape tc || decide (k ≤ resolveIndex (getF tc "index"))

/-- Hypothesis for C10: the line contributes at least one start-shaped
tool-call delta. -/
def lineHasStart (l : String) : Bool :=
  match lineDelta l with
  | none => false
  | some d => (toolCallDeltasOf d).any startShape

/-- Hypothesis for C9, per line: the line contributes no truthy `created`
value. -/
def noCreatedLine (l : String) : Bool := (truthyCreatedOf l).isNone

/-- The logical one-delta SSE stream used to exhibit C1's failure. -/
def c1Full : String :=
  "data: \x7b\"choices\":[\x7b\"delta\":\x7b\"content\":\"Hi\"\x7d\x7d]\x7d\n\n"

/-- First half of `c1Full` split in the middle of the JSON payload. -/
def c1PartA : String := "data: \x7b\"choi"

/-- Second half of `c1Full` split in the middle of the JSON payload. -/
def c1PartB : String :=
  "ces\":[\x7b\"delta\":\x7b\"content\":\"Hi\"\x7d\x7d]\x7d\n\n"

/-- A message whose `content` is truthy but neither a string nor an array:
the source's repair branches all fall through and push it unchanged. -/
def c2BadMsg : Json :=
  Json.obj [("role", Json.str "user"), ("content", Json.bool true)]

/-- A well-shaped message with padded string content. -/
def c2GoodMsg : Json :=
  Json.obj [("role", Json.str "user"), ("content", Json.str " hi ")]

/-- The repaired form of `c2GoodMsg`. -/
def c2GoodFixed : Json :=
  Json.obj [("role", Json.str "user"), ("content", Json.arr [textBlock "hi"])]

/-- A message whose content array holds a `type: "text"` item with a
truthy non-string `text`, on which the filter predicate's `.trim()` call
throws a `TypeError`. -/
def c3BadMsg : Json :=
  Json.obj [("role", Json.str "user"),
            ("content", Json.arr [Json.obj [("type", Json.str "text"),
                                            ("text", Json.num 1)]])]

/-- The `function` object of the concrete start delta used for C4
(spec §8's tool-call example). -/
def c4StartFn : Json :=
  Json.obj [("name", Json.str "f"), ("arguments", Json.str "\x7b\"a\":")]

/-- The concrete tool-call start delta used for C4. -/
def c4Start : Json :=
  Json.obj [("index", Json.num 0), ("id", Json.str "call_1"),
            ("type", Json.str "function"), ("function", c4StartFn)]

/-- The concrete continuation delta used for C4, carrying the second
arguments fragment. -/
def c4Cont : Json :=
  Json.obj [("index", Json.num 0),
            ("function", Json.obj [("arguments", Json.str "1\x7d")])]

/-- A valid content-delta line used for C7. -/
def c7V1 : String :=
  "data: \x7b\"choices\":[\x7b\"delta\":\x7b\"content\":\"A\"\x7d\x7d]\x7d"

/-- A second valid content-delta line used for C7. -/
def c7V2 : String :=
  "data: \x7b\"choices\":[\x7b\"delta\":\x7b\"content\":\"B\"\x7d\x7d]\x7d"

/-- A malformed data line (non-JSON remainder) used for C7. -/
def c7Bad : String := "data: \x7boops"

/-- The delta object `c7V1` parses to. -/
def c7D1 : Json :=
  Json.obj [("choices",
    Json.arr [Json.obj [("delta", Json.obj [("content", Json.str "A")])]])]

/-- The delta object `c7V2` parses to. -/
def c7D2 : Json :=
  Json.obj [("choices",
    Json.arr [Json.obj [("delta", Json.obj [("content", Json.str "B")])]])]

/-- A one-chunk stream none of whose deltas carries `created`. -/
def c9NoCreated : List String :=
  ["data: \x7b\"choices\":[\x7b\"delta\":\x7b\"content\":\"x\"\x7d\x7d]\x7d\n"]

/-- A one-chunk stream whose delta carries `created: 123`. -/
def c9WithCreated : List String := ["data: \x7b\"created\":123\x7d\n"]

/-- The three header names the credential chain reads
(src/main.ts lines 29-31; the Fetch API compares header names
case-insensitively, so the first and third name the same header). -/
def credentialHeaderNames : List String :=
  ["authorization", "x-api-key", "Authorization"]

/-- A POST chat-completion request carrying no credential header. -/
def c8NoCredReq : ReqModel :=
  { method := "POST", urlPath := "/v1/chat/completions", headers := []
    body := some (Json.obj [("messages", Json.arr [])]) }

/-- A POST chat-completion request carrying a non-empty `X-Api-Key`. -/
def c8CredReq : ReqModel :=
  { method := "POST", urlPath := "/v1/chat/completions"
    headers := [("X-Api-Key", "sk-1")]
    body := some (Json.obj [("messages", Json.arr [])]) }

/-- A POST chat-completion request whose `x-api-key` header is present
but carries the empty string. -/
def c8EmptyHeaderReq : ReqModel :=
  { method := "POST", urlPath := "/v1/chat/completions"
    headers := [("x-api-key", "")]
    body := some (Json.obj [("messages", Json.arr [])]) }

/-- A one-chunk stream whose only tool-call start delta populates
index 2. -/
def c10Chunk : String :=
  "data: \x7b\"choices\":[\x7b\"delta\":\x7b\"tool_calls\":[\x7b\"index\":2,\"id\":\"a\",\"type\":\"function\",\"function\":\x7b\"name\":\"g\",\"arguments\":\"\"\x7d\x7d]\x7d\x7d]\x7d\n"

/-- C1 (code bug): the Stream Reducer is NOT invariant to chunking.  The
same logical SSE stream (one content delta `"Hi"` followed by a blank
line) yields content `"Hi"` when delivered in one read but content `null`
when its `data:` line arrives split across two reads: the source splits
each decoded chunk on newlines separately and keeps no carry-over buffer
(`TextDecoder` in stream mode only buffers partial code points, not
partial lines), so the first fragment fails to parse and the second
fragment lacks the `data: ` prefix. -/
theorem collectStreamData_chunking_dependent :
    (collectStreamData 0 0 [c1Full]).messageContent = Json.str "Hi" ∧
    (collectStreamData 0 0 [c1PartA, c1PartB]).messageContent = Json.null ∧
    c1PartA ++ c1PartB = c1Full :=
  ⟨rfl, rfl, rfl⟩

/-- C5: a stream whose only data line is `data: [DONE]` yields a document
with `content` equal to `null` (not the empty string), no `tool_calls`
field on the message, finish reason `"stop"`, and the generated fallback
id `chatcmpl-<millis>` (where `e` models the `Date.now()` read at
document-build time and `s` the seconds read at reducer start). -/
theorem collectStreamData_done_only (s e : Int) :
    collectStreamData s e ["data: [DONE]\n\n"] =
      { id := Json.str ("chatcmpl-" ++ toString e)
        object := "chat.completion"
        created := Json.num s
        model := Json.str "gpt-3.5-turbo"
        messageRole := "assistant"
        messageContent := Json.null
        messageToolCalls := none
        finishReason := Json.str "stop"
        usage := usageZero } :=
  rfl

theorem dropWhile_self (p : Char → Bool) (l : List Char) :
    (l.dropWhile p).dropWhile p = l.dropWhile p := by
  induction l with
  | nil => rfl
  | cons c t ih =>
    by_cases h : p c = true
    · simp [List.dropWhile_cons, h, ih]
    · simp [List.dropWhile_cons, h]

theorem head_dropWhile_not (p : Char → Bool) (l : List Char) (c : Char)
    (h : (l.dropWhile p).head? = some c) : p c = false := by
  induction l with
  | nil => simp at h
  | cons a t ih =>
    by_cases ha : p a = true
    · rw [List.dropWhile_cons, if_pos ha] at h
      exact ih h
    · rw [List.dropWhile_cons, if_neg ha] at h
      simp at h
      rw [← h]
      simpa using ha

theorem exists_append_dropWhile (p : Char → Bool) (l : List Char) :
    ∃ u, l = u ++ l.dropWhile p := by
  induction l with
  | nil => exact ⟨[], rfl⟩
  | cons a t ih =>
    by_cases ha : p a = true
    · obtain ⟨u, hu⟩ := ih
      exact ⟨a :: u, by simp [List.dropWhile_cons, ha, ← hu]⟩
    · exact ⟨[], by simp [List.dropWhile_cons, ha]⟩

theorem dropWhile_eq_self_of_head (p : Char → Bool) (l : List Char)
    (h : ∀ c, l.head? = some c → p c = false) : l.dropWhile p = l := by
  cases l with
  | nil => rfl
  | cons a t => rw [List.dropWhile_cons, if_neg (by simp [h a rfl])]

theorem trim_idem_list (p : Char → Bool) (l : List Char) :
    (((((l.dropWhile p).reverse.dropWhile p).reverse.dropWhile p).reverse.dropWhile
        p).reverse) =
      ((l.dropWhile p).reverse.dropWhile p).reverse := by
  have hb : (((l.dropWhile p).reverse.dropWhile p).reverse).dropWhile p =
      ((l.dropWhile p).reverse.dropWhile p).reverse := by
    apply dropWhile_eq_self_of_head
    intro c hc
    obtain ⟨u, hu⟩ := exists_append_dropWhile p (l.dropWhile p).reverse
    have ha : l.dropWhile p =
        ((l.dropWhile p).reverse.dropWhile p).reverse ++ u.reverse := by
      have h2 := congrArg List.reverse hu
      simpa using h2
    have hhead : (l.dropWhile p).head? = some c := by
      rw [ha]
      cases hcc : ((l.dropWhile p).reverse.dropWhile p).reverse with
      | nil => rw [hcc] at hc; simp at hc
      | cons x xs =>
        rw [hcc] at hc
        simp at hc
        simp [hc]
    exact head_dropWhile_not p l c hhead
  rw [hb, List.reverse_reverse, dropWhile_self]

theorem jsTrim_jsTrim (s : String) : jsTrim (jsTrim s) = jsTrim s :=
  congrArg String.mk (trim_idem_list isWsChar s.toList)

theorem getF_objSet_self (fs : List (String × Json)) (k : String) (v : Json) :
    getF (Json.obj (objSet fs k v)) k = some v := by
  induction fs with
  | nil =>
    simp only [getF, objSet]
    rw [List.find?_cons_of_pos _ (by simp)]
    rfl
  | cons q rest ih =>
    obtain ⟨k0, v0⟩ := q
    by_cases h : k0 = k
    · simp only [getF, objSet, if_pos h]
      rw [List.find?_cons_of_pos _ (by simp [h])]
      rfl
    · simp only [getF, objSet, if_neg h]
      rw [List.find?_cons_of_neg _ (by simp [h])]
      simpa only [getF] using ih

theorem getF_objSet_ne (fs : List (String × Json)) (k k' : String) (v : Json)
    (h : k' ≠ k) : getF (Json.obj (objSet fs k v)) k' = getF (Json.obj fs) k' := by
  induction fs with
  | nil =>
    simp only [getF, objSet]
    rw [List.find?_cons_of_neg _ (by simpa using Ne.symm h)]
  | cons q rest ih =>
    obtain ⟨k0, v0⟩ := q
    by_cases hp : k0 = k
    · subst hp
      rw [show objSet ((k0, v0) :: rest) k0 v = (k0, v) :: rest by simp [objSet]]
      simp only [getF]
      rw [List.find?_cons_of_neg _ (by simpa using Ne.symm h),
        List.find?_cons_of_neg _ (by simpa using Ne.symm h)]
    · rw [show objSet ((k0, v0) :: rest) k v = (k0, v0) :: objSet rest k v by
        simp [objSet, hp]]
      simp only [getF]
      by_cases hk' : k0 = k'
      · rw [List.find?_cons_of_pos _ (by simp [hk']),
          List.find?_cons_of_pos _ (by simp [hk'])]
      · rw [List.find?_cons_of_neg _ (by simp [hk']),
          List.find?_cons_of_neg _ (by simp [hk'])]
        simpa only [getF] using ih

theorem getF_some_obj {j : Json} {k : String} {v : Json}
    (h : getF j k = some v) : ∃ fs, j = Json.obj fs := by
  cases j <;> simp [getF] at h
  exact ⟨_, rfl⟩

theorem blockOk_textBlock (t : String) (h1 : t ≠ "") (h2 : jsTrim t = t) :
    blockOk (textBlock t) = true := by
  simp [blockOk, textBlock, getF, List.find?, h1, h2]

theorem blockOk_fixItem (i : Json) (h : itemKeep i = Except.ok true) :
    blockOk (fixItem i) = true := by
  unfold itemKeep at h
  split at h
  case isTrue htr =>
    split at h
    case _ s hty =>
      split at h
      case isTrue hs =>
        split at h
        case _ tv htx =>
          split at h
          case isTrue htv =>
            split at h
            case _ t =>
              simp only [Except.ok.injEq] at h
              have htne : jsTrim t ≠ "" := of_decide_eq_true h
              obtain ⟨fs, rfl⟩ := getF_some_obj hty
              subst hs
              have hfi : fixItem (Json.obj fs) =
                  Json.obj (objSet fs "text" (Json.str (jsTrim t))) := by
                simp only [fixItem]
                rw [htx]
              rw [hfi]
              unfold blockOk
              rw [getF_objSet_ne _ _ _ _ (by decide),
                getF_objSet_self, hty]
              simp [htne, jsTrim_jsTrim]
            case _ hne => cases h
          case isFalse htv => simp at h
        case _ => simp at h
      case isFalse hs => simp at h
    case _ => simp at h
  case isFalse htr => simp at h

theorem fixContentList_blocks (items : List Json) (valid : List Json)
    (h : fixContentList items = Except.ok valid) : valid.all blockOk = true := by
  induction items generalizing valid with
  | nil =>
    unfold fixContentList at h
    simp only [Except.ok.injEq] at h
    subst h
    rfl
  | cons i rest ih =>
    unfold fixContentList at h
    cases hk : itemKeep i with
    | error e => rw [hk] at h; cases h
    | ok b =>
      rw [hk] at h
      cases b with
      | false => exact ih _ h
      | true =>
        cases hr : fixContentList rest with
        | error e => rw [hr] at h; cases h
        | ok l =>
          rw [hr] at h
          simp only [Except.map, Except.ok.injEq] at h
          subst h
          simp [List.all_cons, blockOk_fixItem i hk, ih l hr]

theorem msgContentOk_fixMessage (m fm : Json) (hshape : contentShapeOk m = true)
    (h : fixMessage m = Except.ok (some fm)) : msgContentOk fm = true := by
  cases hcv : getF m "content" with
  | none =>
    unfold fixMessage at h
    rw [hcv] at h
    split at h
    · simp at h
    · simp at h
  | some v =>
    unfold fixMessage at h
    rw [hcv] at h
    unfold contentShapeOk at hshape
    rw [hcv] at hshape
    split at h
    · simp at h
    · split at h
      next _ s heq =>
        obtain rfl : v = Json.str s := by injection heq
        split at h
        case isTrue hst =>
          split at h
          case isTrue ht =>
            simp only [Except.ok.injEq, Option.some.injEq] at h
            subst h
            obtain ⟨fs, rfl⟩ := getF_some_obj hcv
            unfold withContent
            simp only [msgContentOk]
            rw [getF_objSet_self]
            simp [blockOk_textBlock (jsTrim s) ht (jsTrim_jsTrim s)]
          case isFalse ht => simp at h
        case isFalse hst => simp at h
      next _ items heq =>
        obtain rfl : v = Json.arr items := by injection heq
        split at h
        case _ e hfc => cases h
        case _ valid hfc =>
          split at h
          case isTrue hemp => simp at h
          case isFalse hemp =>
            simp only [Except.ok.injEq, Option.some.injEq] at h
            subst h
            obtain ⟨fs, rfl⟩ := getF_some_obj hcv
            unfold withContent
            simp only [msgContentOk]
            rw [getF_objSet_self]
            simp only [Bool.and_eq_true, Bool.not_eq_true']
            exact ⟨by simpa using hemp, fixContentList_blocks items valid hfc⟩
      next _ hns hna heq =>
        injection heq with hv
        subst hv
        cases v with
        | str s => exact absurd rfl (fun hh => hns s hh)
        | arr items => exact absurd rfl (fun hh => hna items hh)
        | null => simp [Json.truthy] at h
        | bool b =>
          cases b with
          | false => simp [Json.truthy] at h
          | true => simp [Json.truthy] at hshape
        | num n =>
          by_cases hn : n = 0
          · subst hn; simp [Json.truthy] at h
          · simp [Json.truthy, hn] at hshape
        | obj fs2 => simp [Json.truthy] at hshape
      next _ heq => cases heq

theorem fixPass_blocks (ms : List Json) (out : List Json)
    (hshape : ms.all contentShapeOk = true)
    (h : fixPass ms = Except.ok out) : out.all msgContentOk = true := by
  induction ms generalizing out with
  | nil =>
    unfold fixPass at h
    simp only [Except.ok.injEq] at h
    subst h
    rfl
  | cons m rest ih =>
    simp only [List.all_cons, Bool.and_eq_true] at hshape
    unfold fixPass at h
    cases hm : fixMessage m with
    | error e => rw [hm] at h; cases h
    | ok o =>
      rw [hm] at h
      cases o with
      | none => exact ih _ hshape.2 h
      | some fm =>
        cases hr : fixPass rest with
        | error e => rw [hr] at h; cases h
        | ok l =>
          rw [hr] at h
          simp only [Except.map, Except.ok.injEq] at h
          subst h
          simp only [List.all_cons, Bool.and_eq_true]
          exact ⟨msgContentOk_fixMessage m fm hshape.1 hm, ih _ hshape.2 hr⟩

/-- C2 (amended): for every input whose messages' `content` fields are
strings, arrays or absent/falsy, every message in the Normalizer's output
has `content` equal to a non-empty sequence of content blocks with type
`"text"` and non-empty trim-fixed text — so a message with no usable
content never appears in the output.  (The amendment restricts the input
shape: the source pushes a message with a truthy non-string non-array
`content` through unchanged, see the counterexample.) -/
theorem handleChatMessage_content_blocks (ms out : List Json)
    (hshape : ms.all contentShapeOk = true)
    (hok : handleChatMessage ms = Except.ok out) :
    out.all msgContentOk = true := by
  cases hf : fixPass ms with
  | error e =>
    have hcm : handleChatMessage ms = Except.error e := by
      unfold handleChatMessage; rw [hf]
    rw [hcm] at hok
    cases hok
  | ok fixed =>
    have hfix := fixPass_blocks ms fixed hshape hf
    cases fixed with
    | nil =>
      have hcm : handleChatMessage ms = Except.ok [] := by
        unfold handleChatMessage; rw [hf]
      rw [hcm] at hok
      simp only [Except.ok.injEq] at hok
      subst hok
      rfl
    | cons m t =>
      cases t with
      | nil =>
        by_cases hr : roleIsSystem m = true
        · have hcm : handleChatMessage ms = Except.ok [m] := by
            unfold handleChatMessage; rw [hf]; simp [hr]
          rw [hcm] at hok
          simp only [Except.ok.injEq] at hok
          subst hok
          exact hfix
        · have hcm : handleChatMessage ms =
              Except.ok [defaultSystemMessage, m] := by
            unfold handleChatMessage; rw [hf]; simp [hr]
          rw [hcm] at hok
          simp only [Except.ok.injEq] at hok
          subst hok
          have hsys : msgContentOk defaultSystemMessage = true := rfl
          simp only [List.all_cons, Bool.and_eq_true] at hfix ⊢
          exact ⟨hsys, hfix⟩
      | cons m2 t2 =>
        have hcm : handleChatMessage ms = Except.ok (m :: m2 :: t2) := by
          unfold handleChatMessage; rw [hf]
        rw [hcm] at hok
        simp only [Except.ok.injEq] at hok
        subst hok
        exact hfix

/-- C2 counterexample: a message whose `content` is the truthy non-string
non-array value `true` survives the Normalizer unchanged (and, being a
lone non-system survivor, even gets the synthetic system message
prepended), so the output contains a message whose `content` is not a
sequence of text blocks — refuting the claim as stated. -/
theorem handleChatMessage_content_blocks_cex :
    handleChatMessage [c2BadMsg] =
      Except.ok [defaultSystemMessage, c2BadMsg] ∧
    msgContentOk c2BadMsg = false :=
  ⟨rfl, rfl⟩

/-- Witness for the amended C2 at a concrete input. -/
theorem handleChatMessage_content_blocks_witness :
    [c2GoodMsg].all contentShapeOk = true ∧
    handleChatMessage [c2GoodMsg] =
      Except.ok [defaultSystemMessage, c2GoodFixed] ∧
    [defaultSystemMessage, c2GoodFixed].all msgContentOk = true :=
  ⟨rfl, rfl,
    handleChatMessage_content_blocks [c2GoodMsg]
      [defaultSystemMessage, c2GoodFixed] rfl rfl⟩

theorem itemKeep_ok_of_safe (i : Json) (h : itemSafe i = true) :
    isOkE (itemKeep i) = true := by
  unfold itemSafe at h
  unfold itemKeep
  by_cases htr : i.truthy = true
  · simp only [htr, if_true] at h ⊢
    cases hty : getF i "type" with
    | none => rfl
    | some tyv =>
      rw [hty] at h
      cases tyv with
      | str s =>
        by_cases hs : s = "text"
        · simp only [hs, if_pos rfl] at h ⊢
          cases htx : getF i "text" with
          | none => rfl
          | some tv =>
            rw [htx] at h
            by_cases htv : tv.truthy = true
            · simp only [htv, if_true] at h ⊢
              cases tv <;> simp_all [isOkE]
            · rw [Bool.not_eq_true] at htv
              simp [htv, isOkE]
        · simp [hs, isOkE]
      | null => rfl
      | bool b => rfl
      | num n => rfl
      | arr xs => rfl
      | obj fs => rfl
  · rw [Bool.not_eq_true] at htr
    simp [htr, isOkE]

theorem fixContentList_safe (items : List Json) (h : items.all itemSafe = true) :
    ∃ l, fixContentList items = Except.ok l := by
  induction items with
  | nil => exact ⟨[], rfl⟩
  | cons i rest ih =>
    simp only [List.all_cons, Bool.and_eq_true] at h
    obtain ⟨l, hl⟩ := ih h.2
    have h1 := itemKeep_ok_of_safe i h.1
    cases hk : itemKeep i with
    | error e => rw [hk] at h1; cases h1
    | ok b =>
      cases b with
      | false => exact ⟨l, by unfold fixContentList; rw [hk]; exact hl⟩
      | true => exact ⟨fixItem i :: l, by unfold fixContentList; rw [hk, hl]; rfl⟩

theorem fixMessage_safe_isOk (m : Json) (hsafe : msgSafe m = true) :
    isOkE (fixMessage m) = true := by
  unfold fixMessage
  split
  · rfl
  · cases hcv : getF m "content" with
    | none => rfl
    | some v =>
      split
      next _ s heq =>
        split
        · split
          · rfl
          · rfl
        · rfl
      next _ items heq =>
        injection heq with hv
        subst hv
        have hsafe2 : items.all itemSafe = true := by
          have h2 := hsafe
          unfold msgSafe at h2
          rw [hcv] at h2
          simpa using h2
        obtain ⟨l, hl⟩ := fixContentList_safe items hsafe2
        rw [hl]
        split
        next e heq2 => cases heq2
        next valid heq2 =>
          injection heq2 with hv2
          subst hv2
          split
          · rfl
          · rfl
      next _ hns hna heq =>
        split
        · rfl
        · rfl
      next _ heq => rfl

theorem fixPass_safe (ms : List Json) (h : ms.all msgSafe = true) :
    ∃ out, fixPass ms = Except.ok out := by
  induction ms with
  | nil => exact ⟨[], rfl⟩
  | cons m rest ih =>
    simp only [List.all_cons, Bool.and_eq_true] at h
    obtain ⟨l, hl⟩ := ih h.2
    have hm := fixMessage_safe_isOk m h.1
    cases hfm : fixMessage m with
    | error e => rw [hfm] at hm; cases hm
    | ok o =>
      cases o with
      | none => exact ⟨l, by unfold fixPass; rw [hfm]; exact hl⟩
      | some fm => exact ⟨fm :: l, by unfold fixPass; rw [hfm, hl]; rfl⟩

/-- C3 (amended): the Normalizer terminates normally on every message
sequence in which no content-array item is a truthy `type: "text"` object
whose `text` is a truthy non-string — such an item makes the filter
predicate's `item.text.trim()` call throw a `TypeError` (see the
counterexample); for every other malformed input the messages are merely
dropped. -/
theorem handleChatMessage_no_throw (ms : List Json)
    (h : ms.all msgSafe = true) :
    ∃ out, handleChatMessage ms = Except.ok out := by
  obtain ⟨l, hl⟩ := fixPass_safe ms h
  cases l with
  | nil => exact ⟨[], by unfold handleChatMessage; rw [hl]⟩
  | cons m t =>
    cases t with
    | nil =>
      by_cases hr : roleIsSystem m = true
      · exact ⟨[m], by unfold handleChatMessage; rw [hl]; simp [hr]⟩
      · exact ⟨[defaultSystemMessage, m],
          by unfold handleChatMessage; rw [hl]; simp [hr]⟩
    | cons m2 t2 =>
      exact ⟨m :: m2 :: t2, by unfold handleChatMessage; rw [hl]⟩

/-- C3 counterexample: a content array holding an item with type `"text"`
and the number `1` as its `text` makes the Normalizer throw (the filter
predicate calls `.trim()` on the number), refuting the claim that it
never raises an error. -/
theorem handleChatMessage_no_throw_cex :
    handleChatMessage [c3BadMsg] = Except.error () :=
  rfl

/-- Witness for the amended C3 at a concrete input. -/
theorem handleChatMessage_no_throw_witness :
    [c2GoodMsg].all msgSafe = true ∧
    ∃ out, handleChatMessage [c2GoodMsg] = Except.ok out :=
  ⟨rfl, handleChatMessage_no_throw [c2GoodMsg] rfl⟩

/-- C6: when the filter-and-repair pass leaves exactly one message whose
role is not exactly the string `"system"`, the Normalizer's output is the
synthetic system message followed by that survivor; in every other case
(no survivor, more than one, or a lone system survivor) the output is the
filtered list unchanged — no synthetic message is prepended. -/
theorem handleChatMessage_single_prepend (ms l : List Json)
    (hfix : fixPass ms = Except.ok l) :
    (∀ m, l = [m] → roleIsSystem m = false →
      handleChatMessage ms = Except.ok [defaultSystemMessage, m]) ∧
    ((1 < l.length ∨ l = [] ∨ ∃ m, l = [m] ∧ roleIsSystem m = true) →
      handleChatMessage ms = Except.ok l) := by
  constructor
  · intro m hm hr
    subst hm
    unfold handleChatMessage
    rw [hfix]
    simp [hr]
  · intro hcase
    unfold handleChatMessage
    rw [hfix]
    cases l with
    | nil => rfl
    | cons m t =>
      cases t with
      | nil =>
        rcases hcase with hlen | hnil | ⟨m', hm', hr⟩
        · simp at hlen
        · cases hnil
        · injection hm' with h1 h2
          subst h1
          simp [hr]
      | cons m2 t2 => rfl

/-- Witness for C6 at a concrete input. -/
theorem handleChatMessage_single_prepend_witness :
    fixPass [c2GoodMsg] = Except.ok [c2GoodFixed] ∧
    handleChatMessage [c2GoodMsg] =
      Except.ok [defaultSystemMessage, c2GoodFixed] :=
  ⟨rfl,
    (handleChatMessage_single_prepend [c2GoodMsg] [c2GoodFixed] rfl).1
      c2GoodFixed rfl rfl⟩

theorem jsAdd_str_str (s t : String) :
    jsAdd (Json.str s) (Json.str t) = Json.str (s ++ t) := rfl

theorem lookupTC_setTC_self (m : List (Int × ToolCall)) (i : Int)
    (v : ToolCall) : lookupTC (setTC m i v) i = some v := by
  induction m with
  | nil =>
    unfold setTC lookupTC
    rw [List.find?_cons_of_pos _ (by simp)]
    rfl
  | cons p rest ih =>
    obtain ⟨j, w⟩ := p
    by_cases h : j = i
    · unfold setTC
      rw [if_pos h]
      unfold lookupTC
      rw [List.find?_cons_of_pos _ (by simp)]
      rfl
    · unfold setTC
      rw [if_neg h]
      unfold lookupTC
      rw [List.find?_cons_of_neg _ (by simp [h])]
      simpa [lookupTC] using ih

theorem contFragOk_elim (i : Int) (p : Json × String)
    (h : contFragOk i p = true) :
    startShape p.1 = false ∧ resolveIndex (getF p.1 "index") = i ∧
    ∃ fn, getF p.1 "function" = some fn ∧ fn.truthy = true ∧
      getF fn "arguments" = some (Json.str p.2) := by
  unfold contFragOk at h
  simp only [Bool.and_eq_true, Bool.not_eq_true', decide_eq_true_eq] at h
  obtain ⟨⟨h1, h2⟩, h3⟩ := h
  refine ⟨h1, h2, ?_⟩
  cases hfn : getF p.1 "function" with
  | none => rw [hfn] at h3; cases h3
  | some fn =>
    rw [hfn] at h3
    simp only [Bool.and_eq_true] at h3
    refine ⟨fn, rfl, h3.1, ?_⟩
    have h4 := h3.2
    cases ha : getF fn "arguments" with
    | none => rw [ha] at h4; cases h4
    | some av =>
      rw [ha] at h4
      cases av with
      | str a2 =>
        simp only [decide_eq_true_eq] at h4
        rw [h4]
      | null => cases h4
      | bool b => cases h4
      | num n => cases h4
      | arr xs => cases h4
      | obj fs => cases h4

theorem applyToolCallDelta_start_args (m : List (Int × ToolCall)) (d fn : Json)
    (i : Int) (a0 : String) (hstart : startShape d = true)
    (hidx : resolveIndex (getF d "index") = i)
    (hfn : getF d "function" = some fn)
    (harg : getF fn "arguments" = some (Json.str a0)) :
    ∃ tcs : ToolCall, applyToolCallDelta m d = setTC m i tcs ∧
      tcs.function.arguments = Json.str a0 := by
  unfold applyToolCallDelta
  rw [hidx, hstart, if_pos rfl, hfn]
  simp only [Option.getD_some]
  rw [harg]
  by_cases ha0 : a0 = ""
  · subst ha0
    refine ⟨_, rfl, ?_⟩
    simp [Json.truthy]
  · refine ⟨_, rfl, ?_⟩
    simp [Json.truthy, ha0]

theorem applyToolCallDelta_cont (m : List (Int × ToolCall)) (d : Json)
    (i : Int) (tc : ToolCall) (a : String)
    (hstart : startShape d = false)
    (hidx : resolveIndex (getF d "index") = i)
    (hfn : ∃ fn, getF d "function" = some fn ∧ fn.truthy = true ∧
      getF fn "arguments" = some (Json.str a))
    (hcur : lookupTC m i = some tc) :
    ∃ tc2 : ToolCall, lookupTC (applyToolCallDelta m d) i = some tc2 ∧
      tc2.function.arguments = jsAdd tc.function.arguments (Json.str a) ∧
      tc2.id = tc.id ∧ tc2.type = tc.type := by
  obtain ⟨fn, hfn1, hfn2, hfn3⟩ := hfn
  unfold applyToolCallDelta
  rw [hidx, hstart, if_neg (by simp), hcur, hfn1]
  split
  next cur fn2 heq1 heq2 =>
    injection heq1 with h1
    injection heq2 with h2
    subst h1
    subst h2
    rw [if_pos hfn2, hfn3]
    cases hn : getF fn "name" with
    | none => exact ⟨_, lookupTC_setTC_self m i _, rfl, rfl, rfl⟩
    | some nv =>
      by_cases hnv : nv.truthy = true
      · simp only [hnv]
        exact ⟨_, lookupTC_setTC_self m i _, rfl, rfl, rfl⟩
      · rw [Bool.not_eq_true] at hnv
        simp only [hnv]
        exact ⟨_, lookupTC_setTC_self m i _, rfl, rfl, rfl⟩
  next _ _ h2 => exact (h2 tc fn rfl rfl).elim

theorem toolcall_cont_fold (frags : List (Json × String)) (i : Int) :
    ∀ (m : List (Int × ToolCall)) (tc : ToolCall) (s : String),
    frags.all (contFragOk i) = true →
    lookupTC m i = some tc →
    tc.function.arguments = Json.str s →
    ∃ tcf : ToolCall,
      lookupTC ((frags.map Prod.fst).foldl applyToolCallDelta m) i = some tcf ∧
      tcf.function.arguments =
        Json.str (s ++ strConcat (frags.map Prod.snd)) := by
  induction frags with
  | nil =>
    intro m tc s _ hl ha
    exact ⟨tc, hl, by rw [ha]; simp [strConcat]⟩
  | cons p rest ih =>
    intro m tc s hall hl ha
    simp only [List.all_cons, Bool.and_eq_true] at hall
    obtain ⟨hst, hix, fn, hfn1, hfn2, hfn3⟩ := contFragOk_elim i p hall.1
    obtain ⟨tc2, hl2, ha2, _, _⟩ :=
      applyToolCallDelta_cont m p.1 i tc p.2 hst hix ⟨fn, hfn1, hfn2, hfn3⟩ hl
    have ha2' : tc2.function.arguments = Json.str (s ++ p.2) := by
      rw [ha2, ha, jsAdd_str_str]
    obtain ⟨tcf, hlf, haf⟩ := ih _ tc2 (s ++ p.2) hall.2 hl2 ha2'
    refine ⟨tcf, by simpa using hlf, ?_⟩
    rw [haf]
    simp only [List.map_cons, strConcat]
    rw [String.append_assoc]

/-- C4: a start delta at index `i` with arguments `a0`, followed by any
sequence of continuation deltas at the same index whose `arguments`
fragments are applied in declared order, accumulates exactly the
concatenation `a0 ++ fragments` — the very string a single
non-fragmented start delta carrying the total arguments would store. -/
theorem toolcall_fragment_concat (m0 : List (Int × ToolCall)) (i : Int)
    (d0 fn0 : Json) (a0 : String) (frags : List (Json × String))
    (hstart : startShape d0 = true)
    (hidx : resolveIndex (getF d0 "index") = i)
    (hfn : getF d0 "function" = some fn0)
    (harg : getF fn0 "arguments" = some (Json.str a0))
    (hfr : frags.all (contFragOk i) = true) :
    ∃ tcf : ToolCall,
      lookupTC
        ((frags.map Prod.fst).foldl applyToolCallDelta
          (applyToolCallDelta m0 d0)) i = some tcf ∧
      tcf.function.arguments =
        Json.str (a0 ++ strConcat (frags.map Prod.snd)) := by
  obtain ⟨tcs, hset, hargs⟩ :=
    applyToolCallDelta_start_args m0 d0 fn0 i a0 hstart hidx hfn harg
  have hl0 : lookupTC (applyToolCallDelta m0 d0) i = some tcs := by
    rw [hset]; exact lookupTC_setTC_self m0 i tcs
  exact toolcall_cont_fold frags i (applyToolCallDelta m0 d0) tcs a0 hfr hl0 hargs

/-- Witness for C4 at the spec's concrete tool-call example. -/
theorem toolcall_fragment_concat_witness :
    startShape c4Start = true ∧
    resolveIndex (getF c4Start "index") = 0 ∧
    getF c4Start "function" = some c4StartFn ∧
    getF c4StartFn "arguments" = some (Json.str "\x7b\"a\":") ∧
    [(c4Cont, "1\x7d")].all (contFragOk 0) = true ∧
    ∃ tcf : ToolCall,
      lookupTC
        (([(c4Cont, "1\x7d")].map Prod.fst).foldl applyToolCallDelta
          (applyToolCallDelta [] c4Start)) 0 = some tcf ∧
      tcf.function.arguments =
        Json.str ("\x7b\"a\":" ++ strConcat ["1\x7d"]) :=
  ⟨rfl, rfl, rfl, rfl, rfl,
    toolcall_fragment_concat [] 0 c4Start c4StartFn "\x7b\"a\":"
      [(c4Cont, "1\x7d")] rfl rfl rfl rfl rfl⟩

theorem nestedFold_eq_flatten (cs : List String) (st : Acc) :
    cs.foldl (fun st c => (splitLines c).foldl processLine st) st =
      ((cs.map splitLines).flatten).foldl processLine st := by
  induction cs generalizing st with
  | nil => rfl
  | cons c rest ih =>
    simp only [List.foldl_cons, List.map_cons, List.flatten_cons,
      List.foldl_append]
    exact ih _

theorem collectStreamData_eq_lines (s e : Int) (chunks : List String) :
    collectStreamData s e chunks = buildDoc e (collectFromLines s (linesOf chunks)) := by
  unfold collectStreamData collectFromLines linesOf
  rw [nestedFold_eq_flatten]

theorem processLine_of_parseFail (bad : String) (st : Acc)
    (hparse : parseJson (jsTrim (String.mk (bad.toList.drop 6))) = none) :
    processLine st bad = st := by
  unfold processLine
  split
  · split
    · rfl
    · rw [hparse]
  · rfl

/-- C7: a line that starts with `data: ` but whose remainder is not valid
JSON, placed between two valid delta lines, leaves the final accumulated
content (indeed the whole document) exactly as if the line were absent:
the per-line parse failure is swallowed by the `catch` and the fold
continues, never surfacing an error (here `processLine` is a total
function). -/
theorem malformed_line_no_effect (s e : Int) (ls1 ls2 : List String)
    (v1 v2 bad : String) (d1 d2 : Json)
    (hv1 : lineDelta v1 = some d1) (hv2 : lineDelta v2 = some d2)
    (hbadPre : hasDataPre bad.toList = true)
    (hbadParse : parseJson (jsTrim (String.mk (bad.toList.drop 6))) = none) :
    (buildDoc e (collectFromLines s
        (ls1 ++ v1 :: bad :: v2 :: ls2))).messageContent =
      (buildDoc e (collectFromLines s
        (ls1 ++ v1 :: v2 :: ls2))).messageContent := by
  suffices h : collectFromLines s (ls1 ++ v1 :: bad :: v2 :: ls2) =
      collectFromLines s (ls1 ++ v1 :: v2 :: ls2) by rw [h]
  unfold collectFromLines
  rw [List.foldl_append, List.foldl_append]
  simp only [List.foldl_cons]
  rw [processLine_of_parseFail bad _ hbadParse]

/-- Witness for C7 at a concrete three-line stream. -/
theorem malformed_line_no_effect_witness :
    lineDelta c7V1 = some c7D1 ∧ lineDelta c7V2 = some c7D2 ∧
    hasDataPre c7Bad.toList = true ∧
    parseJson (jsTrim (String.mk (c7Bad.toList.drop 6))) = none ∧
    (buildDoc 0 (collectFromLines 0
        ([] ++ c7V1 :: c7Bad :: c7V2 :: []))).messageContent =
      (buildDoc 0 (collectFromLines 0
        ([] ++ c7V1 :: c7V2 :: []))).messageContent :=
  ⟨rfl, rfl, rfl, rfl,
    malformed_line_no_effect 0 0 [] [] c7V1 c7V2 c7Bad c7D1 c7D2
      rfl rfl rfl rfl⟩

theorem processParsed_created (st : Acc) (parsed : Json) :
    (processParsed st parsed).created = (createdOf parsed).getD st.created := by
  unfold processParsed createdOf
  repeat' split
  all_goals simp_all

theorem processLine_created (st : Acc) (l : String) :
    (processLine st l).created = (truthyCreatedOf l).getD st.created := by
  unfold processLine truthyCreatedOf lineDelta
  split
  · split
    · rfl
    · cases hp : parseJson (jsTrim (String.mk (l.toList.drop 6))) with
      | none => rfl
      | some parsed => exact processParsed_created st parsed
  · rfl

theorem foldl_created (ls : List String) : ∀ st : Acc,
    (ls.foldl processLine st).created =
      ls.foldl (fun c l => (truthyCreatedOf l).getD c) st.created := by
  induction ls with
  | nil => intro st; rfl
  | cons l rest ih =>
    intro st
    simp only [List.foldl_cons]
    rw [ih, processLine_created]

theorem foldl_created_getD (ls : List String) :
    ∀ (o : Option Json) (x : Json),
    ls.foldl (fun c l => (truthyCreatedOf l).getD c) (o.getD x) =
      (ls.foldl
        (fun acc l =>
          match truthyCreatedOf l with
          | some v => some v
          | none => acc) o).getD x := by
  induction ls with
  | nil => intro o x; rfl
  | cons l rest ih =>
    intro o x
    simp only [List.foldl_cons]
    rw [← ih]
    congr 1
    cases h : truthyCreatedOf l <;> simp [h]

theorem collect_created (s e : Int) (chunks : List String) :
    (collectStreamData s e chunks).created =
      (lastCreatedIn (linesOf chunks)).getD (Json.num s) := by
  rw [collectStreamData_eq_lines]
  show (collectFromLines s (linesOf chunks)).created = _
  unfold collectFromLines lastCreatedIn
  rw [foldl_created]
  exact foldl_created_getD (linesOf chunks) none (Json.num s)

theorem lastCreatedIn_none (ls : List String)
    (h : ls.all noCreatedLine = true) : lastCreatedIn ls = none := by
  induction ls with
  | nil => rfl
  | cons l rest ih =>
    simp only [List.all_cons, Bool.and_eq_true] at h
    have h1 := h.1
    unfold noCreatedLine at h1
    unfold lastCreatedIn at ih ⊢
    simp only [List.foldl_cons]
    cases htc : truthyCreatedOf l with
    | some v => rw [htc] at h1; simp at h1
    | none =>
      simp only [htc]
      exact ih h.2

/-- C9: when no successfully parsed delta line carries a truthy `created`
field, the emitted document's `created` is the whole-seconds clock value
`s` captured when the reducer started; otherwise it is the last truthy
`created` value contributed by the stream's lines (last-write-wins). -/
theorem collect_created_policy (s e : Int) (chunks : List String) :
    ((linesOf chunks).all noCreatedLine = true →
      (collectStreamData s e chunks).created = Json.num s) ∧
    (∀ c : Json, lastCreatedIn (linesOf chunks) = some c →
      (collectStreamData s e chunks).created = c) := by
  constructor
  · intro hall
    rw [collect_created, lastCreatedIn_none (linesOf chunks) hall]
    rfl
  · intro c hc
    rw [collect_created, hc]
    rfl

/-- Witness for C9 at two concrete streams: one with no `created`
anywhere, one carrying `created: 123`. -/
theorem collect_created_policy_witness :
    (linesOf c9NoCreated).all noCreatedLine = true ∧
    (collectStreamData 5 0 c9NoCreated).created = Json.num 5 ∧
    lastCreatedIn (linesOf c9WithCreated) = some (Json.num 123) ∧
    (collectStreamData 5 0 c9WithCreated).created = Json.num 123 :=
  ⟨rfl, (collect_created_policy 5 0 c9NoCreated).1 rfl,
    rfl, (collect_created_policy 5 0 c9WithCreated).2 (Json.num 123) rfl⟩

theorem lookupTC_setTC_ne (m : List (Int × ToolCall)) (i j : Int)
    (v : ToolCall) (h : j ≠ i) : lookupTC (setTC m i v) j = lookupTC m j := by
  induction m with
  | nil =>
    unfold setTC lookupTC
    rw [List.find?_cons_of_neg _ (by simp; omega)]
  | cons p rest ih =>
    obtain ⟨j0, w⟩ := p
    by_cases hji : j0 = i
    · unfold setTC
      rw [if_pos hji]
      unfold lookupTC
      rw [List.find?_cons_of_neg _ (by simp; omega),
        List.find?_cons_of_neg _ (by simp; omega)]
    · unfold setTC
      rw [if_neg hji]
      by_cases hj0 : j0 = j
      · unfold lookupTC
        rw [List.find?_cons_of_pos _ (by simp [hj0]),
          List.find?_cons_of_pos _ (by simp [hj0])]
      · unfold lookupTC
        rw [List.find?_cons_of_neg _ (by simp [hj0]),
          List.find?_cons_of_neg _ (by simp [hj0])]
        simpa [lookupTC] using ih

theorem mem_setTC (m : List (Int × ToolCall)) (i : Int) (v : ToolCall) :
    ∀ p ∈ setTC m i v, p.1 = i ∨ p ∈ m := by
  induction m with
  | nil =>
    intro p hp
    unfold setTC at hp
    simp at hp
    subst hp
    exact Or.inl rfl
  | cons q rest ih =>
    obtain ⟨j0, w⟩ := q
    intro p hp
    unfold setTC at hp
    by_cases hji : j0 = i
    · rw [if_pos hji] at hp
      rcases List.mem_cons.mp hp with h | h
      · subst h; exact Or.inl rfl
      · exact Or.inr (List.mem_cons_of_mem _ h)
    · rw [if_neg hji] at hp
      rcases List.mem_cons.mp hp with h | h
      · subst h; exact Or.inr (List.mem_cons_self _ _)
      · rcases ih p h with h2 | h2
        · exact Or.inl h2
        · exact Or.inr (List.mem_cons_of_mem _ h2)

theorem lookupTC_mem (m : List (Int × ToolCall)) (i : Int) (tc : ToolCall)
    (h : lookupTC m i = some tc) : (i, tc) ∈ m := by
  unfold lookupTC at h
  cases hf : m.find? fun p => p.1 = i with
  | none => rw [hf] at h; cases h
  | some p =>
    rw [hf] at h
    simp at h
    have hm := List.mem_of_find?_eq_some hf
    have hp := List.find?_some hf
    simp only [decide_eq_true_eq] at hp
    obtain ⟨p1, p2⟩ := p
    simp only at hp h
    subst hp
    subst h
    exact hm

theorem lookupTC_isSome_setTC (m : List (Int × ToolCall)) (i j : Int)
    (v : ToolCall) (h : (lookupTC m j).isSome = true) :
    (lookupTC (setTC m i v) j).isSome = true := by
  by_cases hji : j = i
  · subst hji; rw [lookupTC_setTC_self]; rfl
  · rw [lookupTC_setTC_ne m i j v hji]; exact h

theorem keysGE_applyToolCallDelta (k : Int) (m : List (Int × ToolCall))
    (tc : Json) (hm : ∀ p ∈ m, k ≤ p.1)
    (htc : startShape tc = true → k ≤ resolveIndex (getF tc "index")) :
    ∀ p ∈ applyToolCallDelta m tc, k ≤ p.1 := by
  intro p hp
  unfold applyToolCallDelta at hp
  split at hp
  next hs =>
    rcases mem_setTC _ _ _ p hp with h | h
    · rw [h]; exact htc hs
    · exact hm p h
  next hs =>
    split at hp
    next cur fn heq1 heq2 =>
      split at hp
      · rcases mem_setTC _ _ _ p hp with h | h
        · rw [h]
          exact hm _ (lookupTC_mem m _ cur heq1)
        · exact hm p h
      · exact hm p hp
    next => exact hm p hp

theorem lookupTC_isSome_applyToolCallDelta (m : List (Int × ToolCall))
    (tc : Json) (j : Int) (h : (lookupTC m j).isSome = true) :
    (lookupTC (applyToolCallDelta m tc) j).isSome = true := by
  unfold applyToolCallDelta
  split
  · exact lookupTC_isSome_setTC m _ j _ h
  · split
    next cur fn heq1 heq2 =>
      split
      · exact lookupTC_isSome_setTC m _ j _ h
      · exact h
    next => exact h

theorem lookupTC_isSome_applyToolCallDelta_start (m : List (Int × ToolCall))
    (tc : Json) (hs : startShape tc = true) :
    (lookupTC (applyToolCallDelta m tc)
      (resolveIndex (getF tc "index"))).isSome = true := by
  unfold applyToolCallDelta
  rw [if_pos hs, lookupTC_setTC_self]
  rfl

theorem keysGE_toolFold (k : Int) (tcs : List Json) :
    ∀ m : List (Int × ToolCall),
    (∀ tc ∈ tcs, startShape tc = true →
      k ≤ resolveIndex (getF tc "index")) →
    (∀ p ∈ m, k ≤ p.1) →
    ∀ p ∈ tcs.foldl applyToolCallDelta m, k ≤ p.1 := by
  induction tcs with
  | nil => intro m _ hm; exact hm
  | cons tc rest ih =>
    intro m htcs hm
    simp only [List.foldl_cons]
    exact ih _ (fun t ht => htcs t (List.mem_cons_of_mem _ ht))
      (keysGE_applyToolCallDelta k m tc hm (htcs tc (List.mem_cons_self _ _)))

theorem isSome_toolFold (tcs : List Json) :
    ∀ (m : List (Int × ToolCall)) (j : Int),
    (lookupTC m j).isSome = true →
    (lookupTC (tcs.foldl applyToolCallDelta m) j).isSome = true := by
  induction tcs with
  | nil => intro m j h; exact h
  | cons tc rest ih =>
    intro m j h
    simp only [List.foldl_cons]
    exact ih _ j (lookupTC_isSome_applyToolCallDelta m tc j h)

theorem exists_isSome_toolFold (tcs : List Json) :
    ∀ m : List (Int × ToolCall),
    (∃ tc ∈ tcs, startShape tc = true) →
    ∃ j, (lookupTC (tcs.foldl applyToolCallDelta m) j).isSome = true := by
  induction tcs with
  | nil => intro m h; simp at h
  | cons tc rest ih =>
    intro m h
    simp only [List.foldl_cons]
    rcases h with ⟨t, ht, hs⟩
    rcases List.mem_cons.mp ht with h1 | h1
    · subst h1
      exact ⟨resolveIndex (getF t "index"),
        isSome_toolFold rest _ _
          (lookupTC_isSome_applyToolCallDelta_start m t hs)⟩
    · exact ih _ ⟨t, h1, hs⟩

theorem processParsed_toolCalls (st : Acc) (parsed : Json) :
    (processParsed st parsed).toolCalls =
      (toolCallDeltasOf parsed).foldl applyToolCallDelta st.toolCalls := by
  unfold processParsed
  repeat' split
  all_goals simp_all

theorem processLine_toolCalls (st : Acc) (l : String) :
    (processLine st l).toolCalls =
      (match lineDelta l with
       | some d => (toolCallDeltasOf d).foldl applyToolCallDelta st.toolCalls
       | none => st.toolCalls) := by
  unfold processLine lineDelta
  split
  · split
    · rfl
    · cases hp : parseJson (jsTrim (String.mk (l.toList.drop 6))) with
      | none => rfl
      | some parsed => exact processParsed_toolCalls st parsed
  · rfl

theorem startIdxOkLine_elim (k : Int) (l : String) (d : Json)
    (h : startIdxOkLine k l = true) (hd : lineDelta l = some d) :
    ∀ tc ∈ toolCallDeltasOf d, startShape tc = true →
      k ≤ resolveIndex (getF tc "index") := by
  unfold startIdxOkLine at h
  rw [hd] at h
  simp only [List.all_eq_true, Bool.or_eq_true, Bool.not_eq_true',
    decide_eq_true_eq] at h
  intro tc htc hs
  rcases h tc htc with h1 | h1
  · rw [hs] at h1; cases h1
  · exact h1

theorem keysGE_processLine (k : Int) (st : Acc) (l : String)
    (hl : startIdxOkLine k l = true)
    (hm : ∀ p ∈ st.toolCalls, k ≤ p.1) :
    ∀ p ∈ (processLine st l).toolCalls, k ≤ p.1 := by
  rw [processLine_toolCalls]
  cases hd : lineDelta l with
  | none => exact hm
  | some d => exact keysGE_toolFold k _ _ (startIdxOkLine_elim k l d hl hd) hm

theorem isSome_processLine (st : Acc) (l : String) (j : Int)
    (h : (lookupTC st.toolCalls j).isSome = true) :
    (lookupTC (processLine st l).toolCalls j).isSome = true := by
  rw [processLine_toolCalls]
  cases hd : lineDelta l with
  | none => exact h
  | some d => exact isSome_toolFold _ _ j h

theorem exists_isSome_processLine (st : Acc) (l : String)
    (h : lineHasStart l = true) :
    ∃ j, (lookupTC (processLine st l).toolCalls j).isSome = true := by
  unfold lineHasStart at h
  rw [processLine_toolCalls]
  cases hd : lineDelta l with
  | none => rw [hd] at h; cases h
  | some d =>
    rw [hd] at h
    simp only [List.any_eq_true] at h
    exact exists_isSome_toolFold _ _ h

theorem keysGE_lineFold (k : Int) (ls : List String) :
    ∀ st : Acc, ls.all (startIdxOkLine k) = true →
    (∀ p ∈ st.toolCalls, k ≤ p.1) →
    ∀ p ∈ (ls.foldl processLine st).toolCalls, k ≤ p.1 := by
  induction ls with
  | nil => intro st _ hm; exact hm
  | cons l rest ih =>
    intro st hall hm
    simp only [List.all_cons, Bool.and_eq_true] at hall
    simp only [List.foldl_cons]
    exact ih _ hall.2 (keysGE_processLine k st l hall.1 hm)

theorem isSome_lineFold (ls : List String) :
    ∀ (st : Acc) (j : Int),
    (lookupTC st.toolCalls j).isSome = true →
    (lookupTC (ls.foldl processLine st).toolCalls j).isSome = true := by
  induction ls with
  | nil => intro st j h; exact h
  | cons l rest ih =>
    intro st j h
    simp only [List.foldl_cons]
    exact ih _ j (isSome_processLine st l j h)

theorem exists_isSome_lineFold (ls : List String) :
    ∀ st : Acc, ls.any lineHasStart = true →
    ∃ j, (lookupTC (ls.foldl processLine st).toolCalls j).isSome = true := by
  induction ls with
  | nil => intro st h; cases h
  | cons l rest ih =>
    intro st h
    simp only [List.any_cons, Bool.or_eq_true] at h
    simp only [List.foldl_cons]
    rcases h with h | h
    · obtain ⟨j, hj⟩ := exists_isSome_processLine st l h
      exact ⟨j, isSome_lineFold rest _ j hj⟩
    · exact ih _ h

theorem lookupTC_none_of_keysGE (k : Int) (m : List (Int × ToolCall))
    (hm : ∀ p ∈ m, k ≤ p.1) (i : Int) (hi : i < k) : lookupTC m i = none := by
  unfold lookupTC
  cases hf : m.find? fun p => p.1 = i with
  | none => rfl
  | some p =>
    have hmem := List.mem_of_find?_eq_some hf
    have hp := List.find?_some hf
    simp only [decide_eq_true_eq] at hp
    have hgk := hm p hmem
    exfalso
    omega

theorem arrayLen_ge (m : List (Int × ToolCall)) :
    ∀ p ∈ m, 0 ≤ p.1 → p.1.toNat + 1 ≤ arrayLen m := by
  induction m with
  | nil => intro p hp; cases hp
  | cons q rest ih =>
    intro p hp h0
    rcases List.mem_cons.mp hp with h | h
    · subst h
      unfold arrayLen
      rw [if_pos h0]
      exact Nat.le_max_left _ _
    · unfold arrayLen
      by_cases hq : 0 ≤ q.1
      · rw [if_pos hq]
        exact le_trans (ih p h h0) (Nat.le_max_right _ _)
      · rw [if_neg hq]
        exact ih p h h0

theorem lookupTC_arrayLen_pred (m : List (Int × ToolCall)) (hne : m ≠ [])
    (h0 : ∀ p ∈ m, 0 ≤ p.1) :
    ∃ tc, lookupTC m ((arrayLen m : Int) - 1) = some tc := by
  induction m with
  | nil => exact absurd rfl hne
  | cons q rest ih =>
    obtain ⟨j, w⟩ := q
    have hj : (0 : Int) ≤ j := h0 (j, w) (List.mem_cons_self _ _)
    have hlen : arrayLen ((j, w) :: rest) =
        max (j.toNat + 1) (arrayLen rest) := by
      show (if 0 ≤ (j, w).1 then max ((j, w).1.toNat + 1) (arrayLen rest)
        else arrayLen rest) = _
      rw [if_pos hj]
    by_cases hge : arrayLen rest ≤ j.toNat + 1
    · refine ⟨w, ?_⟩
      rw [hlen, Nat.max_eq_left hge]
      have h2 : ((j.toNat + 1 : Nat) : Int) - 1 = j := by omega
      rw [h2]
      unfold lookupTC
      rw [List.find?_cons_of_pos _ (by simp)]
      rfl
    · push_neg at hge
      rw [hlen, Nat.max_eq_right (le_of_lt hge)]
      have hrne : rest ≠ [] := by
        intro hnil
        rw [hnil] at hge
        simp [arrayLen] at hge
      obtain ⟨tc, htc⟩ := ih hrne (fun p hp => h0 p (List.mem_cons_of_mem _ hp))
      by_cases hjeq : j = (arrayLen rest : Int) - 1
      · refine ⟨w, ?_⟩
        unfold lookupTC
        rw [List.find?_cons_of_pos _ (by simp [hjeq])]
        rfl
      · refine ⟨tc, ?_⟩
        unfold lookupTC
        rw [List.find?_cons_of_neg _ (by simp [hjeq])]
        simpa [lookupTC] using htc

theorem emitToolCalls_sparse (m : List (Int × ToolCall)) (k : Int)
    (hk : 0 < k) (hkeys : ∀ p ∈ m, k ≤ p.1) (hne : m ≠ []) :
    ∃ tl : List (Option ToolCall), emitToolCalls m = some tl ∧
      (∃ tc : ToolCall, tl.getLast? = some (some tc)) ∧
      ∀ i : Nat, i < k.toNat → tl[i]? = some none := by
  have h0 : ∀ p ∈ m, 0 ≤ p.1 := fun p hp => le_trans (le_of_lt hk) (hkeys p hp)
  obtain ⟨q, hq⟩ := List.exists_mem_of_ne_nil m hne
  have hqk := hkeys q hq
  have hqlen := arrayLen_ge m q hq (h0 q hq)
  have hklen : k.toNat + 1 ≤ arrayLen m := by omega
  have hpos : 0 < arrayLen m := by omega
  refine ⟨(List.range (arrayLen m)).map (fun (i : Nat) => lookupTC m (i : Int)),
    ?_, ?_, ?_⟩
  · unfold emitToolCalls
    rw [if_pos hpos]
    rfl
  · obtain ⟨tcm, htcm⟩ := lookupTC_arrayLen_pred m hne h0
    refine ⟨tcm, ?_⟩
    rw [List.getLast?_eq_getElem?]
    simp only [List.length_map, List.length_range, List.getElem?_map]
    rw [List.getElem?_range (by omega : arrayLen m - 1 < arrayLen m)]
    have hcast : ((arrayLen m - 1 : Nat) : Int) = (arrayLen m : Int) - 1 := by
      omega
    simp only [Option.map_some']
    rw [hcast, htcm]
  · intro i hik
    have hilt : i < arrayLen m := by omega
    rw [List.getElem?_map, List.getElem?_range hilt]
    simp only [Option.map_some']
    rw [lookupTC_none_of_keysGE k m hkeys (i : Int) (by omega)]

/-- C10: when every tool-call start delta in the stream populates only
indices at least `k > 0`, the emitted message still carries `tool_calls`;
the emitted sequence ends at the greatest populated slot (its last entry
is populated, so its length is that index plus one), and every position
below `k` is present as an empty (hole) entry rather than being compacted
away. -/
theorem sparse_toolcalls_emission (s e : Int) (chunks : List String) (k : Int)
    (hk : 0 < k)
    (hidx : (linesOf chunks).all (startIdxOkLine k) = true)
    (hstart : (linesOf chunks).any lineHasStart = true) :
    ∃ tl : List (Option ToolCall),
      (collectStreamData s e chunks).messageToolCalls = some tl ∧
      (∃ tc : ToolCall, tl.getLast? = some (some tc)) ∧
      ∀ i : Nat, i < k.toNat → tl[i]? = some none := by
  rw [collectStreamData_eq_lines]
  have hkeys : ∀ p ∈ (collectFromLines s (linesOf chunks)).toolCalls,
      k ≤ p.1 := by
    unfold collectFromLines
    exact keysGE_lineFold k (linesOf chunks) (initAcc s) hidx
      (by intro p hp; simp [initAcc] at hp)
  have hex : ∃ j, (lookupTC
      ((collectFromLines s (linesOf chunks)).toolCalls) j).isSome = true := by
    unfold collectFromLines
    exact exists_isSome_lineFold (linesOf chunks) (initAcc s) hstart
  obtain ⟨j, hj⟩ := hex
  obtain ⟨tc0, htc0⟩ := Option.isSome_iff_exists.mp hj
  have hmem0 := lookupTC_mem _ _ _ htc0
  have hne : (collectFromLines s (linesOf chunks)).toolCalls ≠ [] := by
    intro hnil
    rw [hnil] at hmem0
    cases hmem0
  obtain ⟨tl, h1, h2, h3⟩ := emitToolCalls_sparse _ k hk hkeys hne
  exact ⟨tl, h1, h2, h3⟩

/-- Witness for C10: a stream whose only start delta populates index 2
(so positions 0 and 1 are emitted as holes). -/
theorem sparse_toolcalls_emission_witness :
    (0 : Int) < 2 ∧
    (linesOf [c10Chunk]).all (startIdxOkLine 2) = true ∧
    (linesOf [c10Chunk]).any lineHasStart = true ∧
    ∃ tl : List (Option ToolCall),
      (collectStreamData 0 0 [c10Chunk]).messageToolCalls = some tl ∧
      (∃ tc : ToolCall, tl.getLast? = some (some tc)) ∧
      ∀ i : Nat, i < (2 : Int).toNat → tl[i]? = some none :=
  ⟨by decide, rfl, rfl,
    sparse_toolcalls_emission 0 0 [c10Chunk] 2 (by decide) rfl rfl⟩

theorem jsOrStr_none (b : Option String) : jsOrStr none b = b := rfl

theorem jsOrStr_some_empty (b : Option String) : jsOrStr (some "") b = b := rfl

theorem jsOrStr_some_ne (v : String) (b : Option String) (h : v ≠ "") :
    jsOrStr (some v) b = some v := by
  show (if v = "" then b else some v) = some v
  rw [if_neg h]

theorem tokenTruthy_some_ne (v : String) (h : v ≠ "") :
    tokenTruthy (some v) = true := by
  unfold tokenTruthy
  simp [h]

theorem headersGet_Authorization (hs : List (String × String)) :
    headersGet hs "Authorization" = headersGet hs "authorization" := by
  unfold headersGet
  congr 1

theorem tokenTruthy_false_of_no_value (r : ReqModel)
    (h : ∀ nm ∈ credentialHeaderNames, ∀ v,
      headersGet r.headers nm = some v → v = "") :
    tokenTruthy (credentialToken r) = false := by
  unfold credentialToken
  have e1 : ∀ b, jsOrStr (headersGet r.headers "authorization") b = b := by
    intro b
    cases hg : headersGet r.headers "authorization" with
    | none => rfl
    | some v =>
      have hv := h "authorization" (by simp [credentialHeaderNames]) v hg
      subst hv
      rfl
  have e2 : ∀ b, jsOrStr (headersGet r.headers "x-api-key") b = b := by
    intro b
    cases hg : headersGet r.headers "x-api-key" with
    | none => rfl
    | some v =>
      have hv := h "x-api-key" (by simp [credentialHeaderNames]) v hg
      subst hv
      rfl
  rw [e1, e2]
  cases hg : headersGet r.headers "Authorization" with
  | none => rfl
  | some v =>
    have hv := h "Authorization" (by simp [credentialHeaderNames]) v hg
    subst hv
    rfl

theorem tokenTruthy_true_of_value (r : ReqModel)
    (h : ∃ nm ∈ credentialHeaderNames, ∃ v,
      headersGet r.headers nm = some v ∧ v ≠ "") :
    tokenTruthy (credentialToken r) = true := by
  obtain ⟨nm, hnm, v, hv, hvne⟩ := h
  simp only [credentialHeaderNames, List.mem_cons,
    List.not_mem_nil, or_false] at hnm
  unfold credentialToken
  rcases hnm with rfl | rfl | rfl
  · rw [hv, jsOrStr_some_ne v _ hvne]
    exact tokenTruthy_some_ne v hvne
  · cases hg1 : headersGet r.headers "authorization" with
    | none =>
      rw [jsOrStr_none, hv, jsOrStr_some_ne v _ hvne]
      exact tokenTruthy_some_ne v hvne
    | some v1 =>
      by_cases h1 : v1 = ""
      · subst h1
        rw [jsOrStr_some_empty, hv, jsOrStr_some_ne v _ hvne]
        exact tokenTruthy_some_ne v hvne
      · rw [jsOrStr_some_ne v1 _ h1]
        exact tokenTruthy_some_ne v1 h1
  · rw [headersGet_Authorization] at hv
    rw [hv, jsOrStr_some_ne v _ hvne]
    exact tokenTruthy_some_ne v hvne

/-- C8 (amended): a POST chat-completion request with a parseable body in
which none of the three credential header names carries a non-empty value
is answered 401 with the error envelope (an `error` object holding
`message` and `type`, next to a top-level `type: "error"`), and no
upstream call is made; a request in which any of the three names carries
a NON-EMPTY value passes the credential check (no other format
validation).  The amendment adds "non-empty": the source's `!token` check
also rejects a present-but-empty header value, see the counterexample. -/
theorem handleRequest_credential (r : ReqModel) :
    (r.method = "POST" → strIncludes r.urlPath "/chat/completions" = true →
      ∀ b, r.body = some b →
      (∀ nm ∈ credentialHeaderNames, ∀ v,
        headersGet r.headers nm = some v → v = "") →
      handleRequest r = HResult.jsonResp 401 authEnvelope ∧
        ∀ t pl, handleRequest r ≠ HResult.upstream t pl) ∧
    ((∃ nm ∈ credentialHeaderNames, ∃ v,
        headersGet r.headers nm = some v ∧ v ≠ "") →
      handleRequest r ≠ HResult.jsonResp 401 authEnvelope) := by
  constructor
  · intro hm hp b hb hnoval
    have htok := tokenTruthy_false_of_no_value r hnoval
    have h401 : handleRequest r = HResult.jsonResp 401 authEnvelope := by
      unfold handleRequest
      rw [if_neg (by simp [hm]), if_neg (by simp [hp]), hb]
      split
      next heq => exact absurd heq (by simp)
      next body heq =>
        injection heq with hbb
        subst hbb
        rw [if_pos (by rw [htok]; rfl)]
    exact ⟨h401, fun t pl hcontra => by rw [h401] at hcontra; cases hcontra⟩
  · intro hval hcontra
    have htok := tokenTruthy_true_of_value r hval
    unfold handleRequest at hcontra
    split at hcontra
    · cases hcontra
    · split at hcontra
      · cases hcontra
      · split at hcontra
        next =>
          injection hcontra with h1 h2
          exact absurd h1 (by decide)
        next b hb =>
          rw [htok] at hcontra
          rw [if_neg (by decide)] at hcontra
          split at hcontra
          · injection hcontra with h1 h2
            exact absurd h1 (by decide)
          · split at hcontra
            · injection hcontra with h1 h2
              exact absurd h1 (by decide)
            · cases hcontra

/-- C8 counterexample: a request whose `x-api-key` header is present but
empty-valued still gets the 401 — presence alone does not pass the
check. -/
theorem handleRequest_credential_cex :
    headersGet c8EmptyHeaderReq.headers "x-api-key" = some "" ∧
    handleRequest c8EmptyHeaderReq = HResult.jsonResp 401 authEnvelope :=
  ⟨rfl, rfl⟩

/-- Witness for the amended C8 at two concrete requests. -/
theorem handleRequest_credential_witness :
    (handleRequest c8NoCredReq = HResult.jsonResp 401 authEnvelope ∧
      ∀ t pl, handleRequest c8NoCredReq ≠ HResult.upstream t pl) ∧
    handleRequest c8CredReq ≠ HResult.jsonResp 401 authEnvelope :=
  ⟨(handleRequest_credential c8NoCredReq).1 rfl rfl
      (Json.obj [("messages", Json.arr [])]) rfl
      (by intro nm hnm v hv; cases hv),
    (handleRequest_credential c8CredReq).2
      ⟨"x-api-key", by simp [credentialHeaderNames], "sk-1", rfl, by decide⟩⟩

end CbProxy
